import Mathlib

/-!
# Verification of the `binpack_rs` packing engine

Shallow embedding of the Rust sources of `binpack_rs`:

* `src/packing.rs` — the first-fit packing routine built on a
  `BTreeMap<usize, Vec<usize>>` from remaining capacity to bin indices;
* `src/strategy/composer.rs`, `src/strategy/iterator.rs`,
  `src/strategy/nemo.rs` — the fill/format stage;
* `src/lib.rs` — histogram construction (`create_hist`) and the older
  `create_loss_mask` variant.

Machine integers (`usize`, `u32`) are modelled as `Nat`: none of the verified
paths can overflow 64-bit quantities, and the only subtraction sites
(`pack_size - s`, `old_capacity - s`) are guarded by the surrounding logic.
Rust panics (`expect`, `panic!`, indexing) are modelled with `Except`/`Option`
results.
-/

namespace Binpack

/-! ## `src/packing.rs` : first-fit over a capacity-indexed map

The Rust code keeps `capacity_map : BTreeMap<usize, Vec<usize>>` mapping each
remaining capacity to the indices of the open bins that currently have that
remaining capacity.  We embed the `BTreeMap` as an association list sorted by
strictly increasing key; the three operations used by `first_fit` are embedded
below.  `for (…) in capacity_map.range_mut(s..)` iterates the entries with key
`≥ s` in ascending key order, skipping entries whose index vector is empty. -/

/-- Embedded `BTreeMap<usize, Vec<usize>>`: association list with strictly
increasing keys (remaining capacity) and bin-index buckets. -/
abbrev CapacityMap := List (Nat × List Nat)

/-- Sum of the lengths already placed in one bin. -/
def binSum (b : List Nat) : Nat := b.sum

/-- The qualifying-bin lookup of `first_fit` (packing.rs lines 43-51): walk the
entries with capacity `≥ s` in ascending capacity order and return the first
index of the first non-empty bucket, together with that bucket's capacity. -/
def cmFind (s : Nat) : CapacityMap → Option (Nat × Nat)
  | [] => none
  | (k, idxs) :: rest =>
    if s ≤ k then
      match idxs with
      | [] => cmFind s rest
      | i :: _ => some (k, i)
    else cmFind s rest

/-- `indices.remove(0)` followed by removal of the entry when it became empty
(packing.rs lines 57-61), at key `k`. -/
def cmPopFront (k : Nat) : CapacityMap → CapacityMap
  | [] => []
  | (k', idxs) :: rest =>
    if k' = k then
      if idxs.tail = [] then rest else (k', idxs.tail) :: rest
    else (k', idxs) :: cmPopFront k rest

/-- `capacity_map.entry(k).or_default().push(i)` (packing.rs lines 68 and 74),
keeping the keys sorted as the `BTreeMap` does. -/
def cmPush (k : Nat) (i : Nat) : CapacityMap → CapacityMap
  | [] => [(k, [i])]
  | (k', idxs) :: rest =>
    if k = k' then (k', idxs ++ [i]) :: rest
    else if k < k' then (k, [i]) :: (k', idxs) :: rest
    else (k', idxs) :: cmPush k i rest

/-- The loop state of `first_fit`: the bins built so far (`res`) and the
capacity map. -/
structure FFState where
  res : List (List Nat)
  cm : CapacityMap
  deriving Repr, DecidableEq

/-- One iteration of the `for s in seqlens` loop of `first_fit`
(packing.rs lines 37-76). -/
def firstFitStep (packSize : Nat) (st : FFState) (s : Nat) : FFState :=
  match cmFind s st.cm with
  | some (oldCap, binIdx) =>
    -- a bin was found: remove it from its capacity entry, push the item,
    -- re-file the bin under its new remaining capacity
    let cm1 := cmPopFront oldCap st.cm
    let res1 := st.res.set binIdx (st.res.getD binIdx [] ++ [s])
    { res := res1, cm := cmPush (oldCap - s) binIdx cm1 }
  | none =>
    -- create a new bin
    { res := st.res ++ [[s]], cm := cmPush (packSize - s) st.res.length st.cm }

/-- `first_fit` (packing.rs lines 32-79). -/
def first_fit (seqlens : List Nat) (packSize : Nat) : List (List Nat) :=
  (seqlens.foldl (firstFitStep packSize) ⟨[], []⟩).res

/-- `first_fit_decreasing` (packing.rs lines 81-85): stable sort descending,
then `first_fit`.  `sort_by(|a, b| b.cmp(a))` is a stable sort by `≥`; every
stable sort with the same comparator produces the same list, so it is embedded
with the structurally recursive stable `insertionSort`. -/
def first_fit_decreasing (seqlens : List Nat) (packSize : Nat) : List (List Nat) :=
  first_fit (seqlens.insertionSort (fun a b => b ≤ a)) packSize

/-- `PackingAlgo::pack` (packing.rs lines 10-18) for the two deterministic
variants; `FirstFitShuffle` applies `first_fit` to a random permutation of the
input and is modelled by quantifying over permutations in the theorems. -/
inductive PackingAlgo
  | FirstFit
  | FirstFitDecreasing
  deriving Repr, DecidableEq

def PackingAlgo.pack (a : PackingAlgo) (seqlens : List Nat) (packSize : Nat) :
    List (List Nat) :=
  match a with
  | .FirstFit => first_fit seqlens packSize
  | .FirstFitDecreasing => first_fit_decreasing seqlens packSize

/-- The repository's own `test_first_fit` vector (packing.rs lines 98-109). -/
theorem first_fit_test_vector :
    first_fit [1, 2, 3, 4, 5] 5 = [[1, 2], [3], [4], [5]] := by decide

/-- The repository's own `test_first_fit_decreasing` vector (packing.rs lines
111-121). -/
theorem first_fit_decreasing_test_vector :
    first_fit_decreasing [1, 2, 3, 4, 5] 5 = [[5], [4, 1], [3, 2]] := by decide

/-! ### Capacity-map lemmas -/

/-- All bin indices stored in the capacity map, in entry order. -/
def cmIdxs (cm : CapacityMap) : List Nat := (cm.map Prod.snd).flatten

theorem cmIdxs_nil : cmIdxs [] = [] := rfl

theorem cmIdxs_cons (p : Nat × List Nat) (cm : CapacityMap) :
    cmIdxs (p :: cm) = p.2 ++ cmIdxs cm := rfl

theorem cmIdxs_append (a b : CapacityMap) :
    cmIdxs (a ++ b) = cmIdxs a ++ cmIdxs b := by
  simp [cmIdxs]

theorem mem_cmIdxs {cm : CapacityMap} {j : Nat} :
    j ∈ cmIdxs cm ↔ ∃ p ∈ cm, j ∈ p.2 := by
  simp only [cmIdxs, List.mem_flatten, List.mem_map]
  constructor
  · rintro ⟨l, ⟨p, hp, rfl⟩, hj⟩
    exact ⟨p, hp, hj⟩
  · rintro ⟨p, hp, hj⟩
    exact ⟨p.2, ⟨p, hp, rfl⟩, hj⟩

theorem cmFind_eq_none {s : Nat} {cm : CapacityMap} (hne : ∀ p ∈ cm, p.2 ≠ []) :
    cmFind s cm = none ↔ ∀ p ∈ cm, p.1 < s := by
  induction cm with
  | nil => simp [cmFind]
  | cons p rest ih =>
    obtain ⟨k, idxs⟩ := p
    have hrest : ∀ q ∈ rest, q.2 ≠ [] := fun q hq => hne q (List.mem_cons_of_mem _ hq)
    by_cases h : s ≤ k
    · cases idxs with
      | nil => exact absurd rfl (hne (k, []) (List.mem_cons_self _ _))
      | cons i t =>
        simp only [cmFind, if_pos h]
        constructor
        · intro hcontra; cases hcontra
        · intro hall
          exact absurd (hall (k, i :: t) (List.mem_cons_self _ _)) (by omega)
    · simp only [cmFind, if_neg h, ih hrest]
      constructor
      · intro hall q hq
        rcases List.mem_cons.1 hq with rfl | hq'
        · omega
        · exact hall q hq'
      · intro hall q hq
        exact hall q (List.mem_cons_of_mem _ hq)

theorem cmFind_eq_some {s k i : Nat} : ∀ {cm : CapacityMap},
    cmFind s cm = some (k, i) →
    ∃ pre t post, cm = pre ++ (k, i :: t) :: post ∧ s ≤ k ∧
      ∀ p ∈ pre, p.1 < s ∨ p.2 = [] := by
  intro cm
  induction cm with
  | nil => intro h; cases h
  | cons p rest ih =>
    obtain ⟨k', idxs⟩ := p
    by_cases h : s ≤ k'
    · cases idxs with
      | nil =>
        intro hfind
        simp only [cmFind, if_pos h] at hfind
        obtain ⟨pre, t, post, heq, hs, hpre⟩ := ih hfind
        refine ⟨(k', []) :: pre, t, post, by rw [heq]; rfl, hs, ?_⟩
        intro q hq
        rcases List.mem_cons.1 hq with rfl | hq'
        · exact Or.inr rfl
        · exact hpre q hq'
      | cons i' t' =>
        intro hfind
        simp only [cmFind, if_pos h] at hfind
        obtain ⟨rfl, rfl⟩ : k = k' ∧ i = i' := by
          cases hfind; exact ⟨rfl, rfl⟩
        exact ⟨[], t', rest, rfl, h, by simp⟩
    · intro hfind
      simp only [cmFind, if_neg h] at hfind
      obtain ⟨pre, t, post, heq, hs, hpre⟩ := ih hfind
      refine ⟨(k', idxs) :: pre, t, post, by rw [heq]; rfl, hs, ?_⟩
      intro q hq
      rcases List.mem_cons.1 hq with rfl | hq'
      · exact Or.inl (by omega)
      · exact hpre q hq'

theorem cmPopFront_eq {k i : Nat} {t : List Nat} :
    ∀ (pre post : CapacityMap), (∀ p ∈ pre, p.1 ≠ k) →
    cmPopFront k (pre ++ (k, i :: t) :: post) =
      pre ++ (if t = [] then post else (k, t) :: post) := by
  intro pre
  induction pre with
  | nil =>
    intro post _
    simp [cmPopFront]
  | cons q pre' ih =>
    intro post hpre
    obtain ⟨kq, idxsq⟩ := q
    have hne : kq ≠ k := hpre (kq, idxsq) (List.mem_cons_self _ _)
    simp only [List.cons_append, cmPopFront, if_neg hne, List.append_eq]
    rw [ih post (fun p hp => hpre p (List.mem_cons_of_mem _ hp))]

theorem cmPush_keys {k i : Nat} : ∀ {cm : CapacityMap},
    ∀ x ∈ (cmPush k i cm).map Prod.fst, x = k ∨ x ∈ cm.map Prod.fst := by
  intro cm
  induction cm with
  | nil => simp [cmPush]
  | cons p rest ih =>
    obtain ⟨k', idxs⟩ := p
    by_cases h1 : k = k'
    · simp only [cmPush, if_pos h1]
      intro x hx
      rcases List.mem_cons.1 hx with rfl | hx'
      · exact Or.inr (by simp)
      · exact Or.inr (List.mem_cons_of_mem _ hx')
    · by_cases h2 : k < k'
      · simp only [cmPush, if_neg h1, if_pos h2]
        intro x hx
        rcases List.mem_cons.1 hx with rfl | hx'
        · exact Or.inl rfl
        · exact Or.inr hx'
      · simp only [cmPush, if_neg h1, if_neg h2]
        intro x hx
        rcases List.mem_cons.1 hx with rfl | hx'
        · exact Or.inr (by simp)
        · rcases ih x hx' with rfl | hmem
          · exact Or.inl rfl
          · exact Or.inr (List.mem_cons_of_mem _ hmem)

theorem cmPush_sorted {k i : Nat} : ∀ {cm : CapacityMap},
    List.Pairwise (· < ·) (cm.map Prod.fst) →
    List.Pairwise (· < ·) ((cmPush k i cm).map Prod.fst) := by
  intro cm
  induction cm with
  | nil => simp [cmPush]
  | cons p rest ih =>
    obtain ⟨k', idxs⟩ := p
    intro hsorted
    rw [List.map_cons, List.pairwise_cons] at hsorted
    obtain ⟨hhead, htail⟩ := hsorted
    by_cases h1 : k = k'
    · simp only [cmPush, if_pos h1, List.map_cons, List.pairwise_cons]
      exact ⟨hhead, htail⟩
    · by_cases h2 : k < k'
      · simp only [cmPush, if_neg h1, if_pos h2, List.map_cons, List.pairwise_cons]
        refine ⟨?_, hhead, htail⟩
        intro x hx
        rcases List.mem_cons.1 hx with rfl | hx'
        · exact h2
        · exact lt_trans h2 (hhead x hx')
      · simp only [cmPush, if_neg h1, if_neg h2, List.map_cons, List.pairwise_cons]
        refine ⟨?_, ih htail⟩
        intro x hx
        rcases cmPush_keys x hx with rfl | hmem
        · omega
        · exact hhead x hmem

theorem cmIdxs_cmPush (k i : Nat) : ∀ (cm : CapacityMap),
    (cmIdxs (cmPush k i cm)).Perm (i :: cmIdxs cm) := by
  intro cm
  induction cm with
  | nil => simp [cmPush, cmIdxs]
  | cons p rest ih =>
    obtain ⟨k', idxs⟩ := p
    by_cases h1 : k = k'
    · simp only [cmPush, if_pos h1, cmIdxs_cons, List.append_assoc,
        List.singleton_append]
      exact List.perm_middle
    · by_cases h2 : k < k'
      · simp only [cmPush, if_neg h1, if_pos h2, cmIdxs_cons,
          List.singleton_append]
        exact List.Perm.refl _
      · simp only [cmPush, if_neg h1, if_neg h2, cmIdxs_cons]
        exact (ih.append_left idxs).trans List.perm_middle

theorem cmPush_mem {k i : Nat} : ∀ {cm : CapacityMap} {p : Nat × List Nat},
    p ∈ cmPush k i cm → ∀ j ∈ p.2,
      (p.1 = k ∧ j = i) ∨ ∃ idxs, (p.1, idxs) ∈ cm ∧ j ∈ idxs := by
  intro cm
  induction cm with
  | nil =>
    intro p hp j hj
    simp only [cmPush, List.mem_singleton] at hp
    subst hp
    simp only [List.mem_singleton] at hj
    exact Or.inl ⟨rfl, hj⟩
  | cons q rest ih =>
    obtain ⟨k', idxs⟩ := q
    intro p hp j hj
    by_cases h1 : k = k'
    · rw [cmPush, if_pos h1] at hp
      rcases List.mem_cons.1 hp with rfl | hp'
      · simp only at hj
        rcases List.mem_append.1 hj with hh | hh
        · exact Or.inr ⟨idxs, (List.mem_cons_self _ _), hh⟩
        · simp only [List.mem_singleton] at hh
          subst hh
          exact Or.inl ⟨h1.symm, rfl⟩
      · exact Or.inr ⟨p.2, List.mem_cons_of_mem _ hp', hj⟩
    · by_cases h2 : k < k'
      · rw [cmPush, if_neg h1, if_pos h2] at hp
        rcases List.mem_cons.1 hp with rfl | hp'
        · simp only [List.mem_singleton] at hj
          subst hj
          exact Or.inl ⟨rfl, rfl⟩
        · exact Or.inr ⟨p.2, hp', hj⟩
      · rw [cmPush, if_neg h1, if_neg h2] at hp
        rcases List.mem_cons.1 hp with rfl | hp'
        · exact Or.inr ⟨idxs, (List.mem_cons_self _ _), hj⟩
        · rcases ih hp' j hj with hl | ⟨idxs', hmem, hj'⟩
          · exact Or.inl hl
          · exact Or.inr ⟨idxs', List.mem_cons_of_mem _ hmem, hj'⟩

theorem cmPush_nonempty {k i : Nat} : ∀ {cm : CapacityMap},
    (∀ p ∈ cm, p.2 ≠ []) → ∀ p ∈ cmPush k i cm, p.2 ≠ [] := by
  intro cm
  induction cm with
  | nil =>
    intro _ p hp
    rcases List.mem_cons.1 hp with rfl | h
    · simp
    · cases h
  | cons q rest ih =>
    obtain ⟨k', idxs⟩ := q
    intro hne
    have hrest : ∀ p ∈ rest, p.2 ≠ [] := fun p hp => hne p (List.mem_cons_of_mem _ hp)
    by_cases h1 : k = k'
    · simp only [cmPush, if_pos h1]
      intro p hp
      rcases List.mem_cons.1 hp with rfl | hp'
      · simp
      · exact hrest p hp'
    · by_cases h2 : k < k'
      · simp only [cmPush, if_neg h1, if_pos h2]
        intro p hp
        rcases List.mem_cons.1 hp with rfl | hp'
        · simp
        · exact hne p hp'
      · simp only [cmPush, if_neg h1, if_neg h2]
        intro p hp
        rcases List.mem_cons.1 hp with rfl | hp'
        · exact hne (k', idxs) (List.mem_cons_self _ _)
        · exact ih hrest p hp'

/-! ### The first-fit loop invariant -/

/-- Representation invariant of the `first_fit` loop state: the capacity-map
keys are strictly increasing (`BTreeMap` order), every stored bucket is
non-empty, the stored bin indices are exactly `0, …, res.length - 1` (each
exactly once), and an index filed under capacity `k` names a bin whose current
load is `packSize - k`. -/
structure FFInv (packSize : Nat) (st : FFState) : Prop where
  sorted : List.Pairwise (· < ·) (st.cm.map Prod.fst)
  nonempty : ∀ p ∈ st.cm, p.2 ≠ []
  perm : (cmIdxs st.cm).Perm (List.range st.res.length)
  cap : ∀ p ∈ st.cm, ∀ i ∈ p.2, ∃ b, st.res[i]? = some b ∧ binSum b + p.1 = packSize

theorem ffInv_init (packSize : Nat) : FFInv packSize ⟨[], []⟩ := by
  refine ⟨by simp, by simp, by simp [cmIdxs], by simp⟩

theorem FFInv.nodupIdxs {packSize : Nat} {st : FFState} (h : FFInv packSize st) :
    (cmIdxs st.cm).Nodup :=
  h.perm.nodup_iff.2 (List.nodup_range _)

theorem FFInv.mem_idxs {packSize : Nat} {st : FFState} (h : FFInv packSize st)
    {i : Nat} : i ∈ cmIdxs st.cm ↔ i < st.res.length := by
  rw [h.perm.mem_iff, List.mem_range]

theorem lt_length_of_getElem?_eq_some {α : Type _} {l : List α} {i : Nat}
    {a : α} (h : l[i]? = some a) : i < l.length := by
  by_contra hlt
  rw [List.getElem?_eq_none (by omega)] at h
  cases h

/-- Under the invariant, the qualifying-bin lookup fails exactly when no open
bin can absorb the item. -/
theorem ffInv_find_none_iff {packSize s : Nat} {st : FFState}
    (hInv : FFInv packSize st) :
    cmFind s st.cm = none ↔
      ¬ ∃ (i : Nat) (b : List Nat), st.res[i]? = some b ∧ binSum b + s ≤ packSize := by
  rw [cmFind_eq_none hInv.nonempty]
  constructor
  · rintro hall ⟨i, b, hb, hq⟩
    have hilt : i < st.res.length := lt_length_of_getElem?_eq_some hb
    obtain ⟨p, hp, hip⟩ := mem_cmIdxs.1 (hInv.mem_idxs.2 hilt)
    obtain ⟨b', hb', hcap⟩ := hInv.cap p hp i hip
    rw [hb] at hb'
    obtain rfl : b = b' := by cases hb'; rfl
    have := hall p hp
    omega
  · intro hno p hp
    by_contra hx
    obtain ⟨j, hj⟩ := List.exists_mem_of_ne_nil _ (hInv.nonempty p hp)
    obtain ⟨b, hb, hcap⟩ := hInv.cap p hp j hj
    exact hno ⟨j, b, hb, by omega⟩

/-- Under the invariant, a successful lookup returns a bin that qualifies and,
among all qualifying bins, one of maximal load — i.e. minimal remaining
capacity (`range(s..)` starts at the smallest sufficient key).  The returned
new result list appends the item to that bin. -/
theorem ffStep_found {packSize s oldCap binIdx : Nat} {st : FFState}
    (hInv : FFInv packSize st) (hfind : cmFind s st.cm = some (oldCap, binIdx)) :
    ∃ b, st.res[binIdx]? = some b ∧ binSum b + s ≤ packSize ∧
      (firstFitStep packSize st s).res = st.res.set binIdx (b ++ [s]) ∧
      ∀ (j : Nat) (c : List Nat), st.res[j]? = some c → binSum c + s ≤ packSize →
        binSum c ≤ binSum b := by
  obtain ⟨pre, t, post, hcm, hsle, hpre⟩ := cmFind_eq_some hfind
  have hmem : (oldCap, binIdx :: t) ∈ st.cm := by
    rw [hcm]; exact List.mem_append.2 (Or.inr (List.mem_cons_self _ _))
  obtain ⟨b, hb, hcap⟩ := hInv.cap _ hmem binIdx (List.mem_cons_self _ _)
  have hkeys : st.cm.map Prod.fst =
      pre.map Prod.fst ++ oldCap :: post.map Prod.fst := by
    rw [hcm]; simp
  have hsorted := hInv.sorted
  rw [hkeys, List.pairwise_append] at hsorted
  have hpost : ∀ q ∈ post, oldCap < q.1 := by
    intro q hq
    exact (List.pairwise_cons.1 hsorted.2.1).1 q.1 (List.mem_map_of_mem _ hq)
  refine ⟨b, hb, by omega, ?_, ?_⟩
  · have hstep : firstFitStep packSize st s =
        ⟨st.res.set binIdx (st.res.getD binIdx [] ++ [s]),
         cmPush (oldCap - s) binIdx (cmPopFront oldCap st.cm)⟩ := by
      rw [firstFitStep, hfind]
    rw [hstep]
    show st.res.set binIdx (st.res.getD binIdx [] ++ [s]) =
      st.res.set binIdx (b ++ [s])
    rw [List.getD_eq_getElem?_getD, hb]
    rfl
  · intro j c hc hq
    have hjlt : j < st.res.length := lt_length_of_getElem?_eq_some hc
    obtain ⟨p, hp, hjp⟩ := mem_cmIdxs.1 (hInv.mem_idxs.2 hjlt)
    obtain ⟨c', hc', hcap'⟩ := hInv.cap p hp j hjp
    rw [hc] at hc'
    obtain rfl : c = c' := by cases hc'; rfl
    have hsp : s ≤ p.1 := by omega
    have hocle : oldCap ≤ p.1 := by
      rw [hcm] at hp
      rcases List.mem_append.1 hp with hl | hr
      · rcases hpre p hl with hlt | hnil
        · omega
        · exact absurd hnil (hInv.nonempty p (by
            rw [hcm]; exact List.mem_append.2 (Or.inl hl)))
      · rcases List.mem_cons.1 hr with rfl | hpo
        · exact le_refl _
        · exact le_of_lt (hpost p hpo)
    omega

/-- The invariant is preserved by one loop iteration, provided the item fits
in an empty pack (`s ≤ packSize`, the `pack_size - s` subtraction site). -/
theorem ffInv_step {packSize : Nat} {st : FFState} {s : Nat}
    (hInv : FFInv packSize st) (hs : s ≤ packSize) :
    FFInv packSize (firstFitStep packSize st s) := by
  cases hfind : cmFind s st.cm with
  | none =>
    have hstep : firstFitStep packSize st s =
        ⟨st.res ++ [[s]], cmPush (packSize - s) st.res.length st.cm⟩ := by
      rw [firstFitStep, hfind]
    rw [hstep]
    refine ⟨cmPush_sorted hInv.sorted, cmPush_nonempty hInv.nonempty, ?_, ?_⟩
    · show (cmIdxs (cmPush (packSize - s) st.res.length st.cm)).Perm
        (List.range (st.res ++ [[s]]).length)
      refine (cmIdxs_cmPush _ _ _).trans ?_
      refine (hInv.perm.cons st.res.length).trans ?_
      have h2 : (List.range st.res.length ++ [st.res.length]).Perm
          (st.res.length :: (List.range st.res.length ++ [])) :=
        List.perm_middle
      simp only [List.append_nil] at h2
      have h3 : (st.res.length :: List.range st.res.length).Perm
          (List.range (st.res.length + 1)) := by
        rw [List.range_succ]
        exact h2.symm
      simpa using h3
    · show ∀ p ∈ cmPush (packSize - s) st.res.length st.cm, ∀ i ∈ p.2,
        ∃ b, (st.res ++ [[s]])[i]? = some b ∧ binSum b + p.1 = packSize
      intro p hp j hj
      rcases cmPush_mem hp j hj with ⟨hpk, rfl⟩ | ⟨idxs, hidxs, hj'⟩
      · refine ⟨[s], ?_, ?_⟩
        · rw [List.getElem?_concat_length]
        · simp only [binSum, List.sum_cons, List.sum_nil, hpk]
          omega
      · obtain ⟨b, hb, hcap⟩ := hInv.cap _ hidxs j hj'
        have hjlt : j < st.res.length := lt_length_of_getElem?_eq_some hb
        refine ⟨b, ?_, hcap⟩
        rw [List.getElem?_append, if_pos hjlt]
        exact hb
  | some pr =>
    obtain ⟨oldCap, binIdx⟩ := pr
    obtain ⟨pre, t, post, hcm, hsle, hpre⟩ := cmFind_eq_some hfind
    have hmem : (oldCap, binIdx :: t) ∈ st.cm := by
      rw [hcm]; exact List.mem_append.2 (Or.inr (List.mem_cons_self _ _))
    obtain ⟨b, hb, hcap⟩ := hInv.cap _ hmem binIdx (List.mem_cons_self _ _)
    have hbix : binIdx < st.res.length := (List.getElem?_eq_some.1 hb).1
    have hprelt : ∀ p ∈ pre, p.1 ≠ oldCap := by
      have hkeys : st.cm.map Prod.fst =
          pre.map Prod.fst ++ oldCap :: post.map Prod.fst := by
        rw [hcm]; simp
      have hsorted := hInv.sorted
      rw [hkeys, List.pairwise_append] at hsorted
      intro p hp
      have := hsorted.2.2 p.1 (List.mem_map_of_mem _ hp) oldCap
        (List.mem_cons_self _ _)
      omega
    have hpop : cmPopFront oldCap st.cm =
        pre ++ (if t = [] then post else (oldCap, t) :: post) := by
      rw [hcm]; exact cmPopFront_eq pre post hprelt
    have hmid : cmIdxs st.cm = cmIdxs pre ++ binIdx :: (t ++ cmIdxs post) := by
      rw [hcm, cmIdxs_append, cmIdxs_cons]
      simp
    have hidxs1 : cmIdxs (cmPopFront oldCap st.cm) =
        cmIdxs pre ++ (t ++ cmIdxs post) := by
      rw [hpop]
      by_cases ht : t = []
      · simp [ht, cmIdxs_append]
      · simp [ht, cmIdxs_append, cmIdxs_cons]
    have hnb : binIdx ∉ cmIdxs pre ++ (t ++ cmIdxs post) := by
      have hnd := hInv.nodupIdxs
      rw [hmid] at hnd
      exact (List.nodup_cons.1 (List.nodup_middle.1 hnd)).1
    have hsorted1 : List.Pairwise (· < ·)
        ((cmPopFront oldCap st.cm).map Prod.fst) := by
      rw [hpop]
      by_cases ht : t = []
      · rw [if_pos ht]
        refine List.Pairwise.sublist ?_ hInv.sorted
        rw [hcm]
        simp only [List.map_append, List.map_cons]
        exact List.Sublist.append_left (List.sublist_cons_self _ _) _
      · rw [if_neg ht]
        have heq : ((pre ++ (oldCap, t) :: post).map Prod.fst) =
            st.cm.map Prod.fst := by
          rw [hcm]; simp
        rw [heq]
        exact hInv.sorted
    have hne1 : ∀ p ∈ cmPopFront oldCap st.cm, p.2 ≠ [] := by
      rw [hpop]
      intro p hp
      rcases List.mem_append.1 hp with hl | hr
      · exact hInv.nonempty p (by rw [hcm]; exact List.mem_append.2 (Or.inl hl))
      · by_cases ht : t = []
        · rw [if_pos ht] at hr
          exact hInv.nonempty p
            (by rw [hcm]
                exact List.mem_append.2 (Or.inr (List.mem_cons_of_mem _ hr)))
        · rw [if_neg ht] at hr
          rcases List.mem_cons.1 hr with rfl | hpo
          · exact ht
          · exact hInv.nonempty p
              (by rw [hcm]
                  exact List.mem_append.2 (Or.inr (List.mem_cons_of_mem _ hpo)))
    have hmem1 : ∀ p ∈ cmPopFront oldCap st.cm, ∀ j ∈ p.2,
        ∃ idxs0, (p.1, idxs0) ∈ st.cm ∧ j ∈ idxs0 := by
      rw [hpop]
      intro p hp j hj
      rcases List.mem_append.1 hp with hl | hr
      · exact ⟨p.2, by rw [hcm]; exact List.mem_append.2 (Or.inl hl), hj⟩
      · by_cases ht : t = []
        · rw [if_pos ht] at hr
          exact ⟨p.2,
            by rw [hcm]
               exact List.mem_append.2 (Or.inr (List.mem_cons_of_mem _ hr)), hj⟩
        · rw [if_neg ht] at hr
          rcases List.mem_cons.1 hr with rfl | hpo
          · exact ⟨binIdx :: t, hmem, List.mem_cons_of_mem _ hj⟩
          · exact ⟨p.2,
              by rw [hcm]
                 exact List.mem_append.2 (Or.inr (List.mem_cons_of_mem _ hpo)),
              hj⟩
    have hgetD : st.res.getD binIdx [] = b := by
      rw [List.getD_eq_getElem?_getD, hb]; rfl
    have hstep : firstFitStep packSize st s =
        ⟨st.res.set binIdx (b ++ [s]),
         cmPush (oldCap - s) binIdx (cmPopFront oldCap st.cm)⟩ := by
      have h0 : firstFitStep packSize st s =
          ⟨st.res.set binIdx (st.res.getD binIdx [] ++ [s]),
           cmPush (oldCap - s) binIdx (cmPopFront oldCap st.cm)⟩ := by
        rw [firstFitStep, hfind]
      rw [h0, hgetD]
    rw [hstep]
    refine ⟨cmPush_sorted hsorted1, cmPush_nonempty hne1, ?_, ?_⟩
    · show (cmIdxs (cmPush (oldCap - s) binIdx (cmPopFront oldCap st.cm))).Perm
        (List.range (st.res.set binIdx (b ++ [s])).length)
      refine (cmIdxs_cmPush _ _ _).trans ?_
      have h1 : (binIdx :: cmIdxs (cmPopFront oldCap st.cm)).Perm
          (cmIdxs st.cm) := by
        rw [hidxs1, hmid]
        exact List.perm_middle.symm
      refine (h1.trans hInv.perm).trans ?_
      rw [List.length_set]
    · show ∀ p ∈ cmPush (oldCap - s) binIdx (cmPopFront oldCap st.cm), ∀ i ∈ p.2,
        ∃ c, (st.res.set binIdx (b ++ [s]))[i]? = some c ∧ binSum c + p.1 = packSize
      intro p hp j hj
      rcases cmPush_mem hp j hj with ⟨hpk, rfl⟩ | ⟨idxs, hidxs, hj'⟩
      · refine ⟨b ++ [s], List.getElem?_set_self hbix, ?_⟩
        have hcap' : b.sum + oldCap = packSize := by
          simpa [binSum] using hcap
        simp only [binSum, List.sum_append, List.sum_cons, List.sum_nil, hpk]
        omega
      · obtain ⟨idxs0, hidxs0, hj0⟩ := hmem1 _ hidxs j hj'
        obtain ⟨c, hc, hcap'⟩ := hInv.cap _ hidxs0 j hj0
        have hjne : binIdx ≠ j := by
          intro h
          subst h
          exact hnb (by
            rw [← hidxs1]
            exact mem_cmIdxs.2 ⟨_, hidxs, hj'⟩)
        refine ⟨c, ?_, hcap'⟩
        rw [List.getElem?_set_ne hjne]
        exact hc

theorem ffInv_foldl {packSize : Nat} :
    ∀ (l : List Nat) (st : FFState), FFInv packSize st →
      (∀ x ∈ l, x ≤ packSize) →
      FFInv packSize (l.foldl (firstFitStep packSize) st)
  | [], _, hInv, _ => hInv
  | x :: l, st, hInv, hall => by
    rw [List.foldl_cons]
    exact ffInv_foldl l _ (ffInv_step hInv (hall x (List.mem_cons_self _ _)))
      (fun y hy => hall y (List.mem_cons_of_mem _ hy))

theorem ffInv_first_fit {packSize : Nat} {seqlens : List Nat}
    (h : ∀ x ∈ seqlens, x ≤ packSize) :
    FFInv packSize (seqlens.foldl (firstFitStep packSize) ⟨[], []⟩) :=
  ffInv_foldl seqlens _ (ffInv_init packSize) h

/-- From the invariant: every bin's load is at most the pack size. -/
theorem ffInv_binSum_le {packSize : Nat} {st : FFState}
    (hInv : FFInv packSize st) : ∀ b ∈ st.res, binSum b ≤ packSize := by
  intro b hb
  obtain ⟨i, hi, hget⟩ := List.getElem_of_mem hb
  have hio : st.res[i]? = some b := by
    rw [List.getElem?_eq_getElem hi, hget]
  obtain ⟨p, hp, hip⟩ := mem_cmIdxs.1 (hInv.mem_idxs.2 hi)
  obtain ⟨b', hb', hcap⟩ := hInv.cap p hp i hip
  rw [hio] at hb'
  obtain rfl : b = b' := by cases hb'; rfl
  omega

/-- Appending one element to the bin at a valid index permutes the flattened
result by one extra element. -/
theorem flatten_set_append {l : List (List Nat)} {i : Nat} {b : List Nat}
    {s : Nat} (h : l[i]? = some b) :
    ((l.set i (b ++ [s])).flatten).Perm (l.flatten ++ [s]) := by
  have hi : i < l.length := lt_length_of_getElem?_eq_some h
  have hb : l[i] = b := by
    rw [List.getElem?_eq_getElem hi] at h
    cases h; rfl
  have hdecomp : l = l.take i ++ l[i] :: l.drop (i + 1) := by
    rw [← List.drop_eq_getElem_cons hi, List.take_append_drop]
  rw [List.set_eq_take_append_cons_drop, if_pos hi]
  conv_rhs => rw [hdecomp]
  rw [hb]
  simp only [List.flatten_append, List.flatten_cons, List.append_assoc]
  exact List.Perm.append_left _ (List.Perm.append_left _ List.perm_append_comm)

/-- Each loop iteration of `first_fit` adds exactly the processed item to the
multiset of packed lengths. -/
theorem ffStep_flatten {packSize : Nat} {st : FFState} {s : Nat}
    (hInv : FFInv packSize st) :
    ((firstFitStep packSize st s).res.flatten).Perm (st.res.flatten ++ [s]) := by
  cases hfind : cmFind s st.cm with
  | none =>
    have hstep : firstFitStep packSize st s =
        ⟨st.res ++ [[s]], cmPush (packSize - s) st.res.length st.cm⟩ := by
      rw [firstFitStep, hfind]
    rw [hstep]
    show ((st.res ++ [[s]]).flatten).Perm (st.res.flatten ++ [s])
    simp [List.flatten_append]
  | some pr =>
    obtain ⟨oldCap, binIdx⟩ := pr
    obtain ⟨b, hb, _, hres, _⟩ := ffStep_found hInv hfind
    rw [hres]
    exact flatten_set_append hb

theorem ff_foldl_flatten {packSize : Nat} :
    ∀ (l : List Nat) (st : FFState), FFInv packSize st →
      (∀ x ∈ l, x ≤ packSize) →
      (((l.foldl (firstFitStep packSize) st).res.flatten)).Perm
        (st.res.flatten ++ l)
  | [], _, _, _ => by simp
  | x :: l, st, hInv, hall => by
    rw [List.foldl_cons]
    have h1 := ff_foldl_flatten l (firstFitStep packSize st x)
      (ffInv_step hInv (hall x (List.mem_cons_self _ _)))
      (fun y hy => hall y (List.mem_cons_of_mem _ hy))
    refine h1.trans ?_
    have h2 := @ffStep_flatten packSize st x hInv
    refine (h2.append_right l).trans ?_
    rw [List.append_assoc]
    exact List.Perm.append_left _ (by simp)

/-- The multiset of lengths across all bins equals the input multiset. -/
theorem first_fit_flatten_perm {seqlens : List Nat} {packSize : Nat}
    (h : ∀ x ∈ seqlens, x ≤ packSize) :
    ((first_fit seqlens packSize).flatten).Perm seqlens := by
  have := ff_foldl_flatten seqlens ⟨[], []⟩ (ffInv_init packSize) h
  simpa [first_fit] using this

/-- Every bin produced by `first_fit` keeps within the pack size. -/
theorem first_fit_binSum_le {seqlens : List Nat} {packSize : Nat}
    (h : ∀ x ∈ seqlens, x ≤ packSize) :
    ∀ b ∈ first_fit seqlens packSize, binSum b ≤ packSize :=
  ffInv_binSum_le (ffInv_first_fit h)

/-! ### Claims C1 and C2 -/

/-- The state reached by the `first_fit` loop after processing a prefix of the
input. -/
def ffRun (packSize : Nat) (pre : List Nat) : FFState :=
  pre.foldl (firstFitStep packSize) ⟨[], []⟩

/-- Modelled from the spec wording of the first-fit rule (spec §4.2 and claim
C1): place each length into the *earliest-created* open bin whose remaining
capacity is at least the length, opening a new bin when none qualifies.  Used
only for comparison with the code's `first_fit`. -/
def firstFitEarliestStep (packSize : Nat) (res : List (List Nat)) (s : Nat) :
    List (List Nat) :=
  match res.findIdx? (fun b => decide (binSum b + s ≤ packSize)) with
  | some i => res.set i (res.getD i [] ++ [s])
  | none => res ++ [[s]]

/-- The spec's earliest-created-bin first-fit, for comparison with the code. -/
def first_fit_earliest (seqlens : List Nat) (packSize : Nat) :
    List (List Nat) :=
  seqlens.foldl (firstFitEarliestStep packSize) []

/-- C1 (counterexample).  On input `[5, 8, 2]` with capacity `10`: after
`5` and `8` two bins are open with remaining capacities `5` and `2`.  For the
item `2` the earliest-created qualifying bin is bin 0 (remaining `5 ≥ 2`), but
the ascending `range(s..)` scan of `first_fit` starts at the *smallest*
sufficient remaining capacity and places `2` in bin 1.  The claim's rule
yields `[[5, 2], [8]]`; the code yields `[[5], [8, 2]]`. -/
theorem C1_counterexample :
    first_fit [5, 8, 2] 10 = [[5], [8, 2]] ∧
    first_fit_earliest [5, 8, 2] 10 = [[5, 2], [8]] ∧
    first_fit [5, 8, 2] 10 ≠ first_fit_earliest [5, 8, 2] 10 :=
  ⟨by decide, by decide, by decide⟩

/-- C1 (amended).  For every input list of lengths (each at most the pack
capacity) and every item in it, `first_fit` opens a new bin exactly when no
open bin has sufficient remaining capacity; otherwise it appends the item to a
qualifying open bin whose remaining capacity is minimal — equivalently, whose
load is maximal — among all qualifying open bins (best-fit on remaining
capacity, ties broken by bucket order inside the capacity map), not to the
earliest-created qualifying bin. -/
theorem C1_amended {packSize : Nat} {seqlens pre post : List Nat} {s : Nat}
    (hall : ∀ x ∈ seqlens, x ≤ packSize) (hsplit : seqlens = pre ++ s :: post) :
    ((¬ ∃ (i : Nat) (b : List Nat), (ffRun packSize pre).res[i]? = some b ∧
        binSum b + s ≤ packSize) →
      (firstFitStep packSize (ffRun packSize pre) s).res =
        (ffRun packSize pre).res ++ [[s]]) ∧
    ((∃ (i : Nat) (b : List Nat), (ffRun packSize pre).res[i]? = some b ∧
        binSum b + s ≤ packSize) →
      ∃ (i : Nat) (b : List Nat), (ffRun packSize pre).res[i]? = some b ∧
        binSum b + s ≤ packSize ∧
        (firstFitStep packSize (ffRun packSize pre) s).res =
          (ffRun packSize pre).res.set i (b ++ [s]) ∧
        ∀ (j : Nat) (c : List Nat), (ffRun packSize pre).res[j]? = some c →
          binSum c + s ≤ packSize → binSum c ≤ binSum b) := by
  have hpre : ∀ x ∈ pre, x ≤ packSize := fun x hx =>
    hall x (hsplit ▸ List.mem_append.2 (Or.inl hx))
  have hInv : FFInv packSize (ffRun packSize pre) := ffInv_first_fit hpre
  constructor
  · intro hno
    have hfind : cmFind s (ffRun packSize pre).cm = none :=
      (ffInv_find_none_iff hInv).2 hno
    have hstep : firstFitStep packSize (ffRun packSize pre) s =
        ⟨(ffRun packSize pre).res ++ [[s]],
         cmPush (packSize - s) (ffRun packSize pre).res.length
           (ffRun packSize pre).cm⟩ := by
      rw [firstFitStep, hfind]
    rw [hstep]
  · intro hex
    cases hcf : cmFind s (ffRun packSize pre).cm with
    | none => exact absurd hex ((ffInv_find_none_iff hInv).1 hcf)
    | some pr =>
      obtain ⟨oldCap, binIdx⟩ := pr
      obtain ⟨b, hb, hq, hres, hmin⟩ := ffStep_found hInv hcf
      exact ⟨binIdx, b, hb, hq, hres, hmin⟩

/-- Witness for C1 (amended) at the counterexample input: processing `2` after
`[5, 8]` with capacity `10`. -/
theorem C1_amended_witness :
    ∃ (i : Nat) (b : List Nat), (ffRun 10 [5, 8]).res[i]? = some b ∧
      binSum b + 2 ≤ 10 ∧
      (firstFitStep 10 (ffRun 10 [5, 8]) 2).res =
        (ffRun 10 [5, 8]).res.set i (b ++ [2]) ∧
      ∀ (j : Nat) (c : List Nat), (ffRun 10 [5, 8]).res[j]? = some c →
        binSum c + 2 ≤ 10 → binSum c ≤ binSum b :=
  (@C1_amended 10 [5, 8, 2] [5, 8] [] 2 (by decide) rfl).2
    ⟨1, [8], by decide, by decide⟩

/-- C2.  For every list of lengths bounded by the pack capacity, every bin
produced by `first_fit` — and by the packing strategies, each of which runs
`first_fit` on a reordering of the input (any permutation is covered, which
includes the decreasing sort and the random shuffle) — has a load of at most
the pack capacity. -/
theorem C2_bins_within_capacity {seqlens : List Nat} {packSize : Nat}
    (h : ∀ x ∈ seqlens, x ≤ packSize) :
    (∀ b ∈ first_fit seqlens packSize, binSum b ≤ packSize) ∧
    (∀ a : PackingAlgo, ∀ b ∈ a.pack seqlens packSize, binSum b ≤ packSize) ∧
    (∀ l', l'.Perm seqlens →
      ∀ b ∈ first_fit l' packSize, binSum b ≤ packSize) := by
  refine ⟨first_fit_binSum_le h, ?_, ?_⟩
  · intro a
    cases a with
    | FirstFit => exact first_fit_binSum_le h
    | FirstFitDecreasing =>
      refine first_fit_binSum_le ?_
      intro x hx
      exact h x ((List.perm_insertionSort _ _).mem_iff.1 hx)
  · intro l' hperm
    exact first_fit_binSum_le (fun x hx => h x (hperm.mem_iff.1 hx))

/-- Witness for C2 on the repository's own test input. -/
theorem C2_witness :
    (∀ x ∈ [1, 2, 3, 4, 5], x ≤ 5) ∧
    (∀ b ∈ first_fit [1, 2, 3, 4, 5] 5, binSum b ≤ 5) :=
  ⟨by decide, (C2_bins_within_capacity (by decide)).1⟩

/-! ## The fill/format stage

`IFileHandles = HashMap<usize, (Vec<Sequence>, Vec<Sequence>)>` holds, per
length, the shuffled token sequences and the derived position sequences.  It
is embedded as an association list; the shuffle of `populate_ifile_handles` is
random, so the theorems quantify over the pool contents.  `Vec::pop` removes
the *last* element; the `expect` calls on an empty bucket are modelled with
`Except`. -/

/-- One pool bucket: `(input_ids, position_ids)` for one length. -/
abbrev PoolBucket := List (List Nat) × List (List Nat)

/-- Embedded `IFileHandles`. -/
abbrev Pool := List (Nat × PoolBucket)

/-- `ifile_handles.get_mut(seq_len)` (read part). -/
def poolLookup : Pool → Nat → Option PoolBucket
  | [], _ => none
  | p :: rest, l => if p.1 = l then some p.2 else poolLookup rest l

/-- Writing the mutated bucket back (the in-place part of `get_mut`). -/
def poolUpdate : Pool → Nat → PoolBucket → Pool
  | [], _, _ => []
  | p :: rest, l, v => if p.1 = l then (l, v) :: rest else p :: poolUpdate rest l v

/-- Panics of the fill stage: `pop().expect(…)` on an exhausted bucket, and
the `expect` on a missing answer id inside `create_loss_mask`. -/
inductive FillError
  | PoolUnderflow
  | MissingAnswerId
  deriving Repr, DecidableEq

/-- The truncation/padding step shared by composer.rs lines 31-39 and
iterator.rs lines 52-60. -/
def fillPad (packSize : Nat) (padId : Option Nat) (ids poss : List Nat) :
    List Nat × List Nat :=
  if packSize < ids.length then
    (ids.take packSize, poss.take packSize)
  else
    match padId with
    | some p =>
      (ids ++ List.replicate (packSize - ids.length) p,
       poss ++ List.replicate (packSize - ids.length) 0)
    | none => (ids, poss)

/-- The `for seq_len in assignment` loop of `composer_packing_strategy`
(composer.rs lines 16-29): a missing bucket is silently skipped; present
buckets have both vectors popped and the results appended to the working
buffers. -/
def composerBinLoop : Pool → List Nat → List Nat → List Nat →
    Except FillError ((List Nat × List Nat) × Pool)
  | pool, ids, poss, [] => .ok ((ids, poss), pool)
  | pool, ids, poss, l :: rest =>
    match poolLookup pool l with
    | none => composerBinLoop pool ids poss rest
    | some (ivec, pvec) =>
      match ivec.getLast?, pvec.getLast? with
      | some seq, some pos =>
        composerBinLoop (poolUpdate pool l (ivec.dropLast, pvec.dropLast))
          (ids ++ seq) (poss ++ pos) rest
      | _, _ => .error .PoolUnderflow

/-- The outer loop of `composer_packing_strategy` (composer.rs lines 13-42):
per `oindex`, fill the buffers from the bin, truncate/pad, and record the
pack under key `oindex`. -/
def composerFold : Pool → Nat → Option Nat → List (List Nat) →
    Except FillError (List (List Nat × List Nat) × Pool)
  | pool, _, _, [] => .ok ([], pool)
  | pool, packSize, padId, bin :: bins =>
    match composerBinLoop pool [] [] bin with
    | .error e => .error e
    | .ok ((ids, poss), pool1) =>
      match composerFold pool1 packSize padId bins with
      | .error e => .error e
      | .ok (packs, pool2) =>
        .ok (fillPad packSize padId ids poss :: packs, pool2)

/-- `composer_packing_strategy` (composer.rs lines 4-51), deterministic core:
the per-`oindex` `(tokens, positions_ids)` buffers in bin-creation order.  The
Rust function finally collects two `HashMap`s keyed by `oindex` through
`values()`, whose iteration order is unspecified; that collection step is
modelled by `ComposerResult`. -/
def composerPacks (pool : Pool) (assignments : List (List Nat))
    (packSize : Nat) (padId : Option Nat) :
    Except FillError (List (List Nat × List Nat)) :=
  (composerFold pool packSize padId assignments).map Prod.fst

/-- What `composer_packing_strategy` actually guarantees about its returned
`{tokens, positions_ids}` lists: `tokens` is `values()` of one `HashMap` and
`positions_ids` of another, independently seeded one, so each list is *some*
permutation of the per-`oindex` buffers, with no relation between the two
enumeration orders. -/
def ComposerResult (pool : Pool) (assignments : List (List Nat))
    (packSize : Nat) (padId : Option Nat)
    (tokens positionsIds : List (List Nat)) : Prop :=
  ∃ packs, composerPacks pool assignments packSize padId = .ok packs ∧
    tokens.Perm (packs.map Prod.fst) ∧ positionsIds.Perm (packs.map Prod.snd)

/-- `iterator_packing_strategy` (iterator.rs lines 25-79): the fill loop is
verbatim the composer's; the per-pack records are collected from `BTreeMap`s
keyed by `oindex`, so the emitted stream is the per-index list in
bin-creation order. -/
def iteratorPacks (pool : Pool) (assignments : List (List Nat))
    (packSize : Nat) (padId : Option Nat) :
    Except FillError (List (List Nat × List Nat)) :=
  (composerFold pool packSize padId assignments).map Prod.fst

/-! ## Loss masks and Nemo options (`src/strategy/nemo.rs`, `src/lib.rs`) -/

/-- `create_loss_mask` (strategy/nemo.rs lines 98-139).  `none` models the
`expect` panic when `answer_loss_only` is true and a boundary id is missing.
In the `answer_loss_only = true` branch the loop assigns each `loss_mask[i]`
from `input_ids[i]` alone — the mask starts all-false and no flag is carried
between positions (the Rust loop body only ever writes `loss_mask[i]` for the
current `i`).  In the `answer_loss_only = false` branch, `loss_mask[0] = false`
panics on empty input in Rust; the embedding's `List.set` is a no-op there and
no claim touches that case. -/
def create_loss_mask (input_ids : List Nat) (answer_loss_only : Bool)
    (answer_start_id answer_end_id pad_id : Option Nat) :
    Option (List Bool) :=
  if answer_loss_only = false then
    let base := (List.replicate input_ids.length true).set 0 false
    match pad_id with
    | none => some base
    | some p =>
      some ((input_ids.zip base).map (fun q => if q.1 = p then false else q.2))
  else
    match answer_start_id, answer_end_id with
    | some sId, some eId =>
      some (input_ids.map (fun t =>
        match pad_id with
        | some p =>
          if t = p then false
          else if t = sId then true
          else if t = eId then false
          else false
        | none =>
          if t = sId then true
          else if t = eId then false
          else false))
    | _, _ => none

/-- The `is_answer` scan of the `lib.rs` `create_loss_mask` (lines 180-196):
the flag is set at `answer_start_id`, cleared at `answer_end_id`, carried
across positions, and each non-pad position emits the current flag; pad
positions emit `0` and leave the flag untouched. -/
def lossMaskScan (sId eId : Nat) (padId : Option Nat) :
    Bool → List Nat → List Nat
  | _, [] => []
  | flag, t :: rest =>
    match padId with
    | some p =>
      if t = p then 0 :: lossMaskScan sId eId padId flag rest
      else
        (if t = sId then 1
         else if t = eId then 0
         else if flag then 1 else 0) ::
          lossMaskScan sId eId padId
            (if t = sId then true else if t = eId then false else flag) rest
    | none =>
      (if t = sId then 1
       else if t = eId then 0
       else if flag then 1 else 0) ::
        lossMaskScan sId eId padId
          (if t = sId then true else if t = eId then false else flag) rest

/-- `create_loss_mask` (lib.rs lines 161-198): same interface, `0/1` mask,
with the carried `is_answer` flag.  (Its `answer_loss_only = false` branch has
no pad handling at all.) -/
def create_loss_mask_lib (input_ids : List Nat) (answer_loss_only : Bool)
    (answer_start_id answer_end_id pad_id : Option Nat) :
    Option (List Nat) :=
  if answer_loss_only = false then
    some ((List.replicate input_ids.length 1).set 0 0)
  else
    match answer_start_id, answer_end_id with
    | some sId, some eId => some (lossMaskScan sId eId pad_id false input_ids)
    | _, _ => none

/-- `NemoOptions` (strategy/nemo.rs lines 8-12). -/
structure NemoOptions where
  answer_start_id : Option Nat
  answer_end_id : Option Nat
  answer_loss_only : Bool
  deriving Repr, DecidableEq

/-- `NemoOptions::validate` (strategy/nemo.rs lines 20-29). -/
def NemoOptions.validate (o : NemoOptions) : Except String Unit :=
  if o.answer_loss_only ∧
      (o.answer_start_id = none ∨ o.answer_end_id = none) then
    .error "answer_loss_only is set to true, but answer_start_id or answer_end_id is None"
  else .ok ()

/-- `NemoOptionsBuilder` (strategy/nemo.rs lines 32-37). -/
structure NemoOptionsBuilder where
  answer_start_id : Option Nat := none
  answer_end_id : Option Nat := none
  answer_loss_only : Bool := false
  deriving Repr, DecidableEq

/-- `NemoOptionsBuilder::build` (strategy/nemo.rs lines 73-93): clears both
ids when `answer_loss_only` is false (the "business logic"), then validates. -/
def NemoOptionsBuilder.build (b : NemoOptionsBuilder) :
    Except String NemoOptions :=
  let options : NemoOptions :=
    { answer_start_id := b.answer_start_id
      answer_end_id := b.answer_end_id
      answer_loss_only := b.answer_loss_only }
  let options :=
    if options.answer_loss_only = false then
      { options with answer_start_id := none, answer_end_id := none }
    else options
  match options.validate with
  | .error msg => .error msg
  | .ok _ => .ok options

/-- The `for seq_len in assignment` loop of `nemo_packing_strategy` (nemo.rs
lines 161-180): pop the token sequence, extend `_input_ids`, compute and
extend the per-sequence loss mask, pop the (unused) position sequence, then
push `_input_ids.len()` onto `_seq_start_id`. -/
def nemoBinLoop (opts : NemoOptions) (padId : Option Nat) :
    Pool → List Nat → List Bool → List Nat → List Nat →
    Except FillError ((List Nat × List Bool × List Nat) × Pool)
  | pool, ids, mask, starts, [] => .ok ((ids, mask, starts), pool)
  | pool, ids, mask, starts, l :: rest =>
    match poolLookup pool l with
    | none => nemoBinLoop opts padId pool ids mask starts rest
    | some (ivec, pvec) =>
      match ivec.getLast? with
      | none => .error .PoolUnderflow
      | some seq =>
        match create_loss_mask seq opts.answer_loss_only opts.answer_start_id
            opts.answer_end_id padId with
        | none => .error .MissingAnswerId
        | some lm =>
          match pvec.getLast? with
          | none => .error .PoolUnderflow
          | some _pos =>
            nemoBinLoop opts padId
              (poolUpdate pool l (ivec.dropLast, pvec.dropLast))
              (ids ++ seq) (mask ++ lm) (starts ++ [(ids ++ seq).length]) rest

/-- One pack of `nemo_packing_strategy`: `_seq_start_id` starts as `vec![0]`
and its last entry is popped after the loop (nemo.rs lines 157-187). -/
def nemoBin (opts : NemoOptions) (padId : Option Nat) (pool : Pool)
    (assignment : List Nat) :
    Except FillError ((List Nat × List Bool × List Nat) × Pool) :=
  match nemoBinLoop opts padId pool [] [] [0] assignment with
  | .error e => .error e
  | .ok ((ids, mask, starts), pool') => .ok ((ids, mask, starts.dropLast), pool')

/-- `nemo_packing_strategy` (nemo.rs lines 141-205), deterministic core: the
per-`oindex` `(input_ids, loss_mask, seq_start_id)` triples in bin-creation
order (the final collection again goes through `HashMap::values()`).  Note
that the function receives no pack size: no truncation and no padding is
applied to any buffer. -/
def nemoPacks (opts : NemoOptions) (padId : Option Nat) :
    Pool → List (List Nat) →
    Except FillError (List (List Nat × List Bool × List Nat) × Pool)
  | pool, [] => .ok ([], pool)
  | pool, bin :: bins =>
    match nemoBin opts padId pool bin with
    | .error e => .error e
    | .ok (triple, pool1) =>
      match nemoPacks opts padId pool1 bins with
      | .error e => .error e
      | .ok (packs, pool2) => .ok (triple :: packs, pool2)

/-- The `answer_loss_only = false` part of the repository's `test_loss_mask`
(nemo.rs lines 212-215 and lib.rs lines 383-385). -/
theorem create_loss_mask_all_true_test :
    create_loss_mask [1, 2, 3, 4, 5] false none none none =
      some [false, true, true, true, true] ∧
    create_loss_mask_lib [1, 2, 3, 4, 5] false none none none =
      some [0, 1, 1, 1, 1] := by
  exact ⟨by decide, by decide⟩

/-! ### Pool lemmas -/

theorem poolLookup_decomp : ∀ {pool : Pool} {l : Nat} {v : PoolBucket},
    poolLookup pool l = some v →
    ∃ pre post, pool = pre ++ (l, v) :: post ∧ ∀ p ∈ pre, p.1 ≠ l := by
  intro pool
  induction pool with
  | nil => intro l v h; cases h
  | cons q rest ih =>
    intro l v h
    obtain ⟨q1, q2⟩ := q
    by_cases hq : q1 = l
    · rw [poolLookup, if_pos hq] at h
      obtain rfl : q2 = v := by cases h; rfl
      subst hq
      exact ⟨[], rest, rfl, by simp⟩
    · rw [poolLookup, if_neg hq] at h
      obtain ⟨pre, post, heq, hpre⟩ := ih h
      refine ⟨(q1, q2) :: pre, post, by rw [heq]; rfl, ?_⟩
      intro p hp
      rcases List.mem_cons.1 hp with rfl | hp'
      · exact hq
      · exact hpre p hp'

theorem poolUpdate_eq {l : Nat} {v v' : PoolBucket} :
    ∀ (pre post : Pool), (∀ p ∈ pre, p.1 ≠ l) →
      poolUpdate (pre ++ (l, v) :: post) l v' = pre ++ (l, v') :: post := by
  intro pre
  induction pre with
  | nil => intro post _; simp [poolUpdate]
  | cons q pre' ih =>
    intro post hpre
    obtain ⟨q1, q2⟩ := q
    have hne : q1 ≠ l := hpre (q1, q2) (List.mem_cons_self _ _)
    simp only [List.cons_append, poolUpdate, if_neg hne, List.append_eq]
    rw [ih post (fun p hp => hpre p (List.mem_cons_of_mem _ hp))]

/-- `poolUpdate` never adds or removes keys: bucket presence is stable, so a
length that is found once in the pool is found at every later iteration. -/
theorem poolLookup_update_isSome {l l' : Nat} {v : PoolBucket} :
    ∀ (pool : Pool),
      (poolLookup (poolUpdate pool l v) l').isSome =
        (poolLookup pool l').isSome := by
  intro pool
  induction pool with
  | nil => rfl
  | cons q rest ih =>
    obtain ⟨q1, q2⟩ := q
    by_cases h1 : q1 = l
    · simp only [poolUpdate, if_pos h1]
      subst h1
      by_cases h2 : q1 = l'
      · simp only [poolLookup, if_pos h2, Option.isSome_some]
      · simp only [poolLookup, if_neg h2]
    · simp only [poolUpdate, if_neg h1]
      by_cases h2 : q1 = l'
      · simp only [poolLookup, if_pos h2, Option.isSome_some]
      · simp only [poolLookup, if_neg h2]
        exact ih

/-- Pool well-formedness: each token sequence stored in a bucket has the
bucket's key as its length — true of the pool `populate_ifile_handles` builds,
since buckets are filled from same-length histogram records. -/
def PoolWF (pool : Pool) : Prop :=
  ∀ p ∈ pool, ∀ s ∈ p.2.1, s.length = p.1

instance : DecidablePred PoolWF := fun pool => by
  unfold PoolWF
  infer_instance

theorem poolWF_update_dropLast {pool : Pool} {l : Nat}
    {ivec pvec : List (List Nat)} (hwf : PoolWF pool)
    (hlk : poolLookup pool l = some (ivec, pvec)) :
    PoolWF (poolUpdate pool l (ivec.dropLast, pvec.dropLast)) := by
  obtain ⟨pre, post, heq, hpre⟩ := poolLookup_decomp hlk
  rw [heq, poolUpdate_eq pre post hpre]
  intro p hp s hs
  rcases List.mem_append.1 hp with hl | hr
  · exact hwf p (heq ▸ List.mem_append.2 (Or.inl hl)) s hs
  · rcases List.mem_cons.1 hr with rfl | hp'
    · have hs' : s ∈ ivec := (List.dropLast_sublist ivec).mem hs
      exact hwf (l, (ivec, pvec))
        (heq ▸ List.mem_append.2 (Or.inr (List.mem_cons_self _ _))) s hs'
    · exact hwf p
        (heq ▸ List.mem_append.2 (Or.inr (List.mem_cons_of_mem _ hp'))) s hs

/-- All tokens stored in the pool, as a multiset. -/
def poolTokens (pool : Pool) : Multiset Nat :=
  (((pool.map (fun p => p.2.1)).flatten).flatten : List Nat)

theorem poolTokens_nil : poolTokens [] = 0 := rfl

theorem poolTokens_cons (p : Nat × PoolBucket) (pool : Pool) :
    poolTokens (p :: pool) =
      (↑(p.2.1.flatten) : Multiset Nat) + poolTokens pool := by
  simp only [poolTokens, List.map_cons, List.flatten_cons, List.flatten_append,
    Multiset.coe_add]

theorem poolTokens_append (a b : Pool) :
    poolTokens (a ++ b) = poolTokens a + poolTokens b := by
  simp only [poolTokens, List.map_append, List.flatten_append,
    Multiset.coe_add]

/-- Token conservation of the composer fill loop: whatever leaves the pool
lands at the end of the working buffer, nothing else changes. -/
theorem composerBinLoop_tokens :
    ∀ (bin : List Nat) (pool : Pool) (ids poss : List Nat)
      (out : List Nat × List Nat) (pool' : Pool),
      composerBinLoop pool ids poss bin = .ok (out, pool') →
      (↑out.1 : Multiset Nat) + poolTokens pool' = ↑ids + poolTokens pool := by
  intro bin
  induction bin with
  | nil =>
    intro pool ids poss out pool' h
    rw [composerBinLoop] at h
    cases h
    rfl
  | cons l rest ih =>
    intro pool ids poss out pool' h
    cases hlk : poolLookup pool l with
    | none =>
      simp only [composerBinLoop, hlk] at h
      exact ih pool ids poss out pool' h
    | some bucket =>
      obtain ⟨ivec, pvec⟩ := bucket
      cases hgi : ivec.getLast? with
      | none => simp only [composerBinLoop, hlk, hgi] at h; cases h
      | some seq =>
        cases hgp : pvec.getLast? with
        | none => simp only [composerBinLoop, hlk, hgi, hgp] at h; cases h
        | some pos =>
          simp only [composerBinLoop, hlk, hgi, hgp] at h
          have hrec := ih _ _ _ _ _ h
          obtain ⟨pre, post, heq, hpre⟩ := poolLookup_decomp hlk
          have hupd : poolUpdate pool l (ivec.dropLast, pvec.dropLast) =
              pre ++ (l, (ivec.dropLast, pvec.dropLast)) :: post := by
            rw [heq]; exact poolUpdate_eq pre post hpre
          rw [hupd, poolTokens_append, poolTokens_cons] at hrec
          rw [heq, poolTokens_append, poolTokens_cons]
          have hseq : ivec.dropLast ++ [seq] = ivec :=
            List.dropLast_append_getLast? _ hgi
          have hflat : (↑(ivec.flatten) : Multiset Nat) =
              ↑(ivec.dropLast.flatten) + ↑seq := by
            rw [← hseq, List.flatten_append]
            simp [Multiset.coe_add]
          rw [hrec, hflat, ← Multiset.coe_add]
          simp only [add_comm, add_left_comm, add_assoc]

/-- Length bound and well-formedness preservation of the fill loop: at most
`binSum bin` tokens are appended (exactly that many when nothing is skipped),
and the pool stays well-formed. -/
theorem composerBinLoop_spec :
    ∀ (bin : List Nat) (pool : Pool) (ids poss : List Nat)
      (out : List Nat × List Nat) (pool' : Pool),
      PoolWF pool →
      composerBinLoop pool ids poss bin = .ok (out, pool') →
      out.1.length ≤ ids.length + binSum bin ∧ PoolWF pool' := by
  intro bin
  induction bin with
  | nil =>
    intro pool ids poss out pool' hwf h
    rw [composerBinLoop] at h
    cases h
    exact ⟨by simp [binSum], hwf⟩
  | cons l rest ih =>
    intro pool ids poss out pool' hwf h
    cases hlk : poolLookup pool l with
    | none =>
      simp only [composerBinLoop, hlk] at h
      obtain ⟨hlen, hwf'⟩ := ih pool ids poss out pool' hwf h
      refine ⟨?_, hwf'⟩
      have : binSum rest ≤ binSum (l :: rest) := by
        simp [binSum]
      omega
    | some bucket =>
      obtain ⟨ivec, pvec⟩ := bucket
      cases hgi : ivec.getLast? with
      | none => simp only [composerBinLoop, hlk, hgi] at h; cases h
      | some seq =>
        cases hgp : pvec.getLast? with
        | none => simp only [composerBinLoop, hlk, hgi, hgp] at h; cases h
        | some pos =>
          simp only [composerBinLoop, hlk, hgi, hgp] at h
          have hwf1 : PoolWF (poolUpdate pool l (ivec.dropLast, pvec.dropLast)) :=
            poolWF_update_dropLast hwf hlk
          obtain ⟨hlen, hwf'⟩ := ih _ _ _ _ _ hwf1 h
          refine ⟨?_, hwf'⟩
          have hseqmem : seq ∈ ivec := by
            have hseq : ivec.dropLast ++ [seq] = ivec :=
              List.dropLast_append_getLast? _ hgi
            rw [← hseq]
            exact List.mem_append.2 (Or.inr (List.mem_singleton.2 rfl))
          obtain ⟨pre, post, heq, _⟩ := poolLookup_decomp hlk
          have hseqlen : seq.length = l :=
            hwf (l, (ivec, pvec))
              (heq ▸ List.mem_append.2 (Or.inr (List.mem_cons_self _ _)))
              seq hseqmem
          have hsum : binSum (l :: rest) = l + binSum rest := by
            simp [binSum]
          rw [List.length_append, hseqlen] at hlen
          omega

/-- Token conservation of the composer outer loop with no pad id configured
and all bins within capacity (so no truncation): the tokens of the emitted
packs plus the tokens left in the pool are exactly the initial pool tokens. -/
theorem composerFold_tokens {packSize : Nat} :
    ∀ (bins : List (List Nat)) (pool : Pool)
      (packs : List (List Nat × List Nat)) (pool' : Pool),
      PoolWF pool → (∀ b ∈ bins, binSum b ≤ packSize) →
      composerFold pool packSize none bins = .ok (packs, pool') →
      (↑((packs.map Prod.fst).flatten) : Multiset Nat) + poolTokens pool' =
        poolTokens pool := by
  intro bins
  induction bins with
  | nil =>
    intro pool packs pool' _ _ h
    rw [composerFold] at h
    cases h
    simp
  | cons bin bins ih =>
    intro pool packs pool' hwf hball h
    cases hbl : composerBinLoop pool [] [] bin with
    | error e => simp only [composerFold, hbl] at h; cases h
    | ok r =>
      obtain ⟨⟨ids, poss⟩, pool1⟩ := r
      cases hfd : composerFold pool1 packSize none bins with
      | error e => simp only [composerFold, hbl, hfd] at h; cases h
      | ok r2 =>
        obtain ⟨packs', pool2⟩ := r2
        simp only [composerFold, hbl, hfd] at h
        cases h
        obtain ⟨hlen, hwf1⟩ := composerBinLoop_spec bin pool [] [] (ids, poss)
          pool1 hwf hbl
        have hlen' : ids.length ≤ binSum bin := by simpa using hlen
        have hb1 : binSum bin ≤ packSize := hball bin (List.mem_cons_self _ _)
        have hfill : fillPad packSize none ids poss = (ids, poss) := by
          simp only [fillPad, if_neg (show ¬ packSize < ids.length by omega)]
        have hcons := composerBinLoop_tokens bin pool [] [] (ids, poss) pool1 hbl
        simp only [Multiset.coe_nil, zero_add] at hcons
        have hrec := ih pool1 packs' pool' hwf1
          (fun b hb => hball b (List.mem_cons_of_mem _ hb)) hfd
        rw [hfill]
        simp only [List.map_cons, List.flatten_cons]
        rw [← Multiset.coe_add]
        rw [add_assoc, hrec, hcons]

/-! ### Claims C3, C4, C5, C6, C7, C9 -/

/-- C3 (code evaluation).  The per-`oindex` buffers are computed in
bin-creation order, but `composer_packing_strategy` returns
`input_ids.values()` and `positions_ids.values()` of two independently seeded
`HashMap`s: each returned list is only guaranteed to be *some* permutation of
the per-index buffers, the two enumeration orders unrelated.  At a 2-bin
input, the pair `tokens = [[3,4,5],[1,2]]`, `positions_ids = [[0,1],[0,1,2]]`
— tokens enumerated in one hash order, positions in the other — satisfies
everything the code guarantees, yet `tokens[0]` is bin 1's buffer while
`positions_ids[0]` is bin 0's buffer: neither the claimed bin-creation order
nor the claimed parallelism is guaranteed. -/
theorem C3_code_eval :
    composerPacks [(2, ([[1, 2]], [[0, 1]])), (3, ([[3, 4, 5]], [[0, 1, 2]]))]
        [[2], [3]] 3 none = .ok [([1, 2], [0, 1]), ([3, 4, 5], [0, 1, 2])] ∧
    ComposerResult [(2, ([[1, 2]], [[0, 1]])), (3, ([[3, 4, 5]], [[0, 1, 2]]))]
        [[2], [3]] 3 none [[3, 4, 5], [1, 2]] [[0, 1], [0, 1, 2]] ∧
    ¬ ([[3, 4, 5], [1, 2]] : List (List Nat))[0]? = some [1, 2] := by
  refine ⟨rfl,
    ⟨[([1, 2], [0, 1]), ([3, 4, 5], [0, 1, 2])], rfl, ?_, ?_⟩, by decide⟩
  · decide
  · decide

/-- C4 (code evaluation).  With `answer_loss_only = true`, the strategy
`create_loss_mask` (strategy/nemo.rs) writes each position from its own token
only — positions after an `answer_start_id` position do not stay true.  On
`[4368, 9, 106]` (start id 4368, end id 106) the claimed left-to-right scan
yields `[true, true, false]`, which is what the `lib.rs` variant computes,
but the nemo code yields `[true, false, false]`; on the 49-token input of the
unit test in the same file (nemo.rs lines 216-236) the code's output differs
from the mask the test asserts, i.e. the code contradicts its own test. -/
theorem C4_code_eval :
    create_loss_mask [4368, 9, 106] true (some 4368) (some 106) none =
      some [true, false, false] ∧
    create_loss_mask_lib [4368, 9, 106] true (some 4368) (some 106) none =
      some [1, 1, 0] ∧
    create_loss_mask
        [2, 105, 2364, 107, 3689, 563, 506, 5279, 529, 7001, 236881, 106, 107,
         105, 4368, 107, 818, 5279, 529, 7001, 563, 9079, 236761, 106, 107,
         105, 2364, 107, 3689, 563, 506, 5279, 529, 9405, 236881, 106, 107,
         105, 4368, 107, 818, 5279, 529, 9405, 563, 15687, 236761, 106, 107]
        true (some 4368) (some 106) none ≠
      some
        [false, false, false, false, false, false, false, false, false, false,
         false, false, false, false, true, true, true, true, true, true, true,
         true, true, false, false, false, false, false, false, false, false,
         false, false, false, false, false, false, false, true, true, true,
         true, true, true, true, true, true, false, false] :=
  ⟨by decide, by decide, by decide⟩

/-- C5.  (a) The multiset of lengths across all bins of the assignment
returned by `first_fit` equals the input length multiset.  (b) In the fill
step over that assignment (composer loop, no pad id so that nothing is added,
bins within capacity so that nothing is truncated), the tokens of the emitted
packs together with the tokens left in the pool are exactly the tokens of the
initial pool: each pooled token is consumed into exactly one output pack, no
duplication, no loss. -/
theorem C5_roundtrip {seqlens : List Nat} {packSize : Nat}
    (h : ∀ x ∈ seqlens, x ≤ packSize) :
    ((first_fit seqlens packSize).flatten).Perm seqlens ∧
    (∀ (pool : Pool) (packs : List (List Nat × List Nat)) (pool' : Pool),
      PoolWF pool →
      composerFold pool packSize none (first_fit seqlens packSize) =
        .ok (packs, pool') →
      (↑((packs.map Prod.fst).flatten) : Multiset Nat) + poolTokens pool' =
        poolTokens pool) := by
  refine ⟨first_fit_flatten_perm h, ?_⟩
  intro pool packs pool' hwf hfold
  exact composerFold_tokens (first_fit seqlens packSize) pool packs pool' hwf
    (first_fit_binSum_le h) hfold

/-- Witness for C5 at a concrete two-sequence input. -/
theorem C5_witness :
    ((first_fit [2, 3] 3).flatten).Perm [2, 3] ∧
    (↑(([([1, 2], [0, 1]), ([3, 4, 5], [0, 1, 2])].map Prod.fst).flatten)
        : Multiset Nat) +
        poolTokens [(2, ([], [])), (3, ([], []))] =
      poolTokens [(2, ([[1, 2]], [[0, 1]])), (3, ([[3, 4, 5]], [[0, 1, 2]]))] := by
  have hmain := @C5_roundtrip [2, 3] 3 (by decide)
  exact ⟨hmain.1, hmain.2 _ _ _ (by decide) rfl⟩

/-- Every pack in the composer/iterator output is the image of its raw
buffers under the shared truncate/pad step. -/
theorem composerFold_pack_mem {packSize : Nat} {padId : Option Nat} :
    ∀ (bins : List (List Nat)) (pool : Pool)
      (packs : List (List Nat × List Nat)) (pool' : Pool),
      composerFold pool packSize padId bins = .ok (packs, pool') →
      ∀ pk ∈ packs, ∃ ids poss, pk = fillPad packSize padId ids poss := by
  intro bins
  induction bins with
  | nil =>
    intro pool packs pool' h
    rw [composerFold] at h
    cases h
    intro pk hpk
    cases hpk
  | cons bin bins ih =>
    intro pool packs pool' h
    cases hbl : composerBinLoop pool [] [] bin with
    | error e => simp only [composerFold, hbl] at h; cases h
    | ok r =>
      obtain ⟨⟨ids, poss⟩, pool1⟩ := r
      cases hfd : composerFold pool1 packSize padId bins with
      | error e => simp only [composerFold, hbl, hfd] at h; cases h
      | ok r2 =>
        obtain ⟨packs', pool2⟩ := r2
        simp only [composerFold, hbl, hfd] at h
        cases h
        intro pk hpk
        rcases List.mem_cons.1 hpk with rfl | hpk'
        · exact ⟨ids, poss, rfl⟩
        · exact ih pool1 packs' pool' hfd pk hpk'

/-- C6 (amended).  The truncate/pad step is shared by the composer and
iterator strategies (the nemo strategy applies neither, see the
counterexample): if the concatenated length exceeds capacity, both buffers
are truncated to capacity and no padding happens; otherwise, with a pad id
configured, the token buffer is right-padded with the pad id and the position
buffer with zeros up to exactly capacity, and with no pad id the pack stays
as is (ragged).  Consequently, with a pad id configured every composer pack
and every iterator pack has exactly capacity tokens, and no pack is ever both
truncated and padded. -/
theorem C6_amended :
    (∀ (packSize : Nat) (padId : Option Nat) (ids poss : List Nat),
      packSize < ids.length →
      fillPad packSize padId ids poss =
        (ids.take packSize, poss.take packSize)) ∧
    (∀ (packSize : Nat) (ids poss : List Nat), ¬ packSize < ids.length →
      fillPad packSize none ids poss = (ids, poss)) ∧
    (∀ (packSize p : Nat) (ids poss : List Nat), ¬ packSize < ids.length →
      fillPad packSize (some p) ids poss =
        (ids ++ List.replicate (packSize - ids.length) p,
         poss ++ List.replicate (packSize - ids.length) 0)) ∧
    (∀ (packSize p : Nat) (ids poss : List Nat),
      (fillPad packSize (some p) ids poss).1.length = packSize) ∧
    (∀ (pool : Pool) (bins : List (List Nat)) (packSize p : Nat)
      (packs : List (List Nat × List Nat)),
      composerPacks pool bins packSize (some p) = .ok packs →
      ∀ pk ∈ packs, pk.1.length = packSize) ∧
    (∀ (pool : Pool) (bins : List (List Nat)) (packSize p : Nat)
      (packs : List (List Nat × List Nat)),
      iteratorPacks pool bins packSize (some p) = .ok packs →
      ∀ pk ∈ packs, pk.1.length = packSize) := by
  have hfp : ∀ (packSize p : Nat) (ids poss : List Nat),
      (fillPad packSize (some p) ids poss).1.length = packSize := by
    intro packSize p ids poss
    by_cases hlt : packSize < ids.length
    · simp only [fillPad, if_pos hlt]
      simp
      omega
    · simp only [fillPad, if_neg hlt]
      simp
      omega
  have hpacks : ∀ (pool : Pool) (bins : List (List Nat)) (packSize p : Nat)
      (packs : List (List Nat × List Nat)),
      composerPacks pool bins packSize (some p) = .ok packs →
      ∀ pk ∈ packs, pk.1.length = packSize := by
    intro pool bins packSize p packs h pk hpk
    have hfold : ∃ pool', composerFold pool packSize (some p) bins =
        .ok (packs, pool') := by
      rw [composerPacks] at h
      cases hfd : composerFold pool packSize (some p) bins with
      | error e => rw [hfd] at h; cases h
      | ok r =>
        rw [hfd] at h
        obtain ⟨packs0, pool'⟩ := r
        cases h
        exact ⟨pool', rfl⟩
    obtain ⟨pool', hfold⟩ := hfold
    obtain ⟨ids, poss, rfl⟩ :=
      composerFold_pack_mem bins pool packs pool' hfold pk hpk
    exact hfp packSize p ids poss
  refine ⟨?_, ?_, ?_, hfp, hpacks, hpacks⟩
  · intro packSize padId ids poss hlt
    simp only [fillPad, if_pos hlt]
  · intro packSize ids poss hlt
    simp only [fillPad, if_neg hlt]
  · intro packSize p ids poss hlt
    simp only [fillPad, if_neg hlt]

/-- Witness for C6 at concrete buffers: padding to capacity, exact capacity
with a pad id, and pure truncation. -/
theorem C6_witness :
    fillPad 4 (some 9) [1, 2] [0, 1] = ([1, 2, 9, 9], [0, 1, 0, 0]) ∧
    (fillPad 4 (some 9) [1, 2] [0, 1]).1.length = 4 ∧
    fillPad 2 none [1, 2, 3] [0, 1, 2] = ([1, 2], [0, 1]) := by
  have h := C6_amended
  refine ⟨?_, h.2.2.2.1 4 9 [1, 2] [0, 1], ?_⟩
  · have := h.2.2.1 4 9 [1, 2] [0, 1] (by decide)
    simpa using this
  · have := h.1 2 none [1, 2, 3] [0, 1, 2] (by decide)
    simpa using this

/-- C6 (counterexample).  `nemo_packing_strategy` receives no pack size
and never truncates nor pads: with capacity 4, pad id 0 configured, and one
pooled sequence `[7, 8]` of length 2, the assignment is `[[2]]` and the
emitted nemo pack is `[7, 8]` — 2 tokens, not the claimed exactly-4. -/
theorem C6_counterexample :
    first_fit [2] 4 = [[2]] ∧
    nemoPacks ⟨none, none, false⟩ (some 0) [(2, ([[7, 8]], [[0, 1]]))] [[2]] =
      .ok ([([7, 8], [false, true], [0])], [(2, ([], []))]) ∧
    ([7, 8] : List Nat).length ≠ 4 :=
  ⟨by decide, rfl, by decide⟩

/-- The `_seq_start_id` evolution of the nemo fill loop when every length of
the bin has a pool bucket (no silent skips): each processed sub-sequence
pushes the running total of popped lengths. -/
theorem nemoBinLoop_starts {opts : NemoOptions} {padId : Option Nat} :
    ∀ (bin : List Nat) (pool : Pool) (ids : List Nat) (mask : List Bool)
      (starts : List Nat) (out : List Nat × List Bool × List Nat)
      (pool' : Pool),
      PoolWF pool → (∀ l ∈ bin, (poolLookup pool l).isSome) →
      nemoBinLoop opts padId pool ids mask starts bin = .ok (out, pool') →
      out.2.2 = starts ++ (List.range bin.length).map
        (fun j => ids.length + binSum (bin.take (j + 1))) := by
  intro bin
  induction bin with
  | nil =>
    intro pool ids mask starts out pool' _ _ h
    rw [nemoBinLoop] at h
    cases h
    simp
  | cons l rest ih =>
    intro pool ids mask starts out pool' hwf hpresent h
    cases hlk : poolLookup pool l with
    | none =>
      exact absurd (hpresent l (List.mem_cons_self _ _))
        (by rw [hlk]; simp)
    | some bucket =>
      obtain ⟨ivec, pvec⟩ := bucket
      cases hgi : ivec.getLast? with
      | none => simp only [nemoBinLoop, hlk, hgi] at h; cases h
      | some seq =>
        cases hlm : create_loss_mask seq opts.answer_loss_only
            opts.answer_start_id opts.answer_end_id padId with
        | none => simp only [nemoBinLoop, hlk, hgi, hlm] at h; cases h
        | some lm =>
          cases hgp : pvec.getLast? with
          | none => simp only [nemoBinLoop, hlk, hgi, hlm, hgp] at h; cases h
          | some pos =>
            simp only [nemoBinLoop, hlk, hgi, hlm, hgp] at h
            have hwf1 : PoolWF (poolUpdate pool l (ivec.dropLast, pvec.dropLast)) :=
              poolWF_update_dropLast hwf hlk
            have hpres1 : ∀ l' ∈ rest,
                (poolLookup (poolUpdate pool l (ivec.dropLast, pvec.dropLast)) l').isSome := by
              intro l' hl'
              rw [poolLookup_update_isSome]
              exact hpresent l' (List.mem_cons_of_mem _ hl')
            have hrec := ih _ _ _ _ _ _ hwf1 hpres1 h
            have hseqmem : seq ∈ ivec := by
              have hseq : ivec.dropLast ++ [seq] = ivec :=
                List.dropLast_append_getLast? _ hgi
              rw [← hseq]
              exact List.mem_append.2 (Or.inr (List.mem_singleton.2 rfl))
            obtain ⟨pre, post, heq, _⟩ := poolLookup_decomp hlk
            have hseqlen : seq.length = l :=
              hwf (l, (ivec, pvec))
                (heq ▸ List.mem_append.2 (Or.inr (List.mem_cons_self _ _)))
                seq hseqmem
            rw [hrec]
            have hmap : (List.range ((l :: rest).length)).map
                  (fun j => ids.length + binSum ((l :: rest).take (j + 1))) =
                (ids ++ seq).length ::
                  (List.range rest.length).map
                    (fun j => (ids ++ seq).length + binSum (rest.take (j + 1))) := by
              rw [List.length_cons, List.range_succ_eq_map, List.map_cons,
                List.map_map]
              congr 1
              · simp [List.take_succ_cons, binSum, hseqlen]
              · apply List.map_congr_left
                intro j _
                simp only [Function.comp_apply, Nat.succ_eq_add_one,
                  List.take_succ_cons, binSum, List.sum_cons,
                  List.length_append, hseqlen]
                omega
            rw [hmap]
            simp

/-- C7 (amended).  For a pack built from a bin of `k` lengths, all present
in the pool (no silent skips) and with well-formed buckets, the emitted
`seq_start_id` buffer contains exactly `k` offsets: the token offsets at which
sub-sequences `1` through `k` begin — the leading offset `0` *included* — with
the final running total (the pack's end offset) popped off.  It does not omit
the first sub-sequence's offset. -/
theorem C7_amended {opts : NemoOptions} {padId : Option Nat} {pool : Pool}
    {bin : List Nat} {out : List Nat × List Bool × List Nat} {pool' : Pool}
    (hwf : PoolWF pool) (hpresent : ∀ l ∈ bin, (poolLookup pool l).isSome)
    (h : nemoBin opts padId pool bin = .ok (out, pool')) :
    out.2.2 = (List.range bin.length).map (fun j => binSum (bin.take j)) ∧
    out.2.2.length = bin.length := by
  cases hloop : nemoBinLoop opts padId pool [] [] [0] bin with
  | error e => rw [nemoBin, hloop] at h; cases h
  | ok r =>
    obtain ⟨⟨ids, mask, starts⟩, pool1⟩ := r
    rw [nemoBin, hloop] at h
    cases h
    have hstarts := nemoBinLoop_starts bin pool [] [] [0] (ids, mask, starts)
      pool' hwf hpresent hloop
    simp only [List.length_nil, Nat.zero_add] at hstarts
    have hzero : ([0] ++ (List.range bin.length).map
          (fun j => binSum (bin.take (j + 1)))) =
        (List.range (bin.length + 1)).map (fun j => binSum (bin.take j)) := by
      rw [List.range_succ_eq_map, List.map_cons, List.map_map]
      congr 1
    have hdrop : ((List.range (bin.length + 1)).map
          (fun j => binSum (bin.take j))).dropLast =
        (List.range bin.length).map (fun j => binSum (bin.take j)) := by
      rw [List.range_succ, List.map_append]
      simp
    constructor
    · show starts.dropLast = _
      rw [hstarts, hzero, hdrop]
    · show starts.dropLast.length = _
      rw [hstarts, hzero, hdrop]
      simp

/-- Witness for C7 (amended) at a 2-sub-sequence pack: the buffer is `[0, 3]`
— offsets of both sub-sequences, leading 0 kept. -/
theorem C7_amended_witness :
    ([0, 3] : List Nat) = (List.range ([3, 2] : List Nat).length).map
        (fun j => binSum (([3, 2] : List Nat).take j)) ∧
    ([0, 3] : List Nat).length = ([3, 2] : List Nat).length := by
  have h := @C7_amended ⟨none, none, false⟩ none
    [(3, ([[1, 2, 3]], [[0, 1, 2]])), (2, ([[4, 5]], [[0, 1]]))]
    [3, 2]
    ([1, 2, 3, 4, 5], [false, true, true, false, true], [0, 3])
    [(3, ([], [])), (2, ([], []))]
    (by decide) (by decide) rfl
  exact h

/-- C7 (counterexample).  A pack holding `k = 2` concatenated
sub-sequences (lengths 3 and 2) gets `seq_start_id = [0, 3]`: two entries,
the leading offset 0 included and the end offset 5 popped — not the claimed
`k - 1 = 1` entries with offset 0 omitted. -/
theorem C7_counterexample :
    nemoPacks ⟨none, none, false⟩ none
        [(3, ([[1, 2, 3]], [[0, 1, 2]])), (2, ([[4, 5]], [[0, 1]]))] [[3, 2]] =
      .ok ([([1, 2, 3, 4, 5], [false, true, true, false, true], [0, 3])],
           [(3, ([], [])), (2, ([], []))]) ∧
    ([0, 3] : List Nat).length ≠ 2 - 1 :=
  ⟨rfl, by decide⟩

/-- C9.  `NemoOptionsBuilder::build` fails exactly when
`answer_loss_only` is true and at least one boundary id is absent; a
successfully built `NemoOptions` keeps the `answer_loss_only` flag, and when
that flag is true it carries both boundary ids (exactly the ones given to the
builder), so no validation error can arise later at use. -/
theorem C9_options_validated (b : NemoOptionsBuilder) :
    ((∃ msg, b.build = .error msg) ↔
      b.answer_loss_only = true ∧
        (b.answer_start_id = none ∨ b.answer_end_id = none)) ∧
    (∀ o, b.build = .ok o →
      o.answer_loss_only = b.answer_loss_only ∧
      (o.answer_loss_only = true →
        o.answer_start_id = b.answer_start_id ∧
        o.answer_end_id = b.answer_end_id ∧
        ∃ sId eId, o.answer_start_id = some sId ∧
          o.answer_end_id = some eId)) := by
  obtain ⟨s, e, lo⟩ := b
  cases lo with
  | false =>
    constructor
    · constructor
      · rintro ⟨msg, hmsg⟩
        simp [NemoOptionsBuilder.build, NemoOptions.validate] at hmsg
      · rintro ⟨hlo, _⟩
        cases hlo
    · intro o ho
      simp [NemoOptionsBuilder.build, NemoOptions.validate] at ho
      subst ho
      exact ⟨rfl, fun hcontra => by cases hcontra⟩
  | true =>
    cases s with
    | none =>
      constructor
      · constructor
        · intro _
          exact ⟨rfl, Or.inl rfl⟩
        · intro _
          exact ⟨"answer_loss_only is set to true, but answer_start_id or answer_end_id is None",
            by simp [NemoOptionsBuilder.build, NemoOptions.validate]⟩
      · intro o ho
        simp [NemoOptionsBuilder.build, NemoOptions.validate] at ho
    | some sv =>
      cases e with
      | none =>
        constructor
        · constructor
          · intro _
            exact ⟨rfl, Or.inr rfl⟩
          · intro _
            exact ⟨"answer_loss_only is set to true, but answer_start_id or answer_end_id is None",
              by simp [NemoOptionsBuilder.build, NemoOptions.validate]⟩
        · intro o ho
          simp [NemoOptionsBuilder.build, NemoOptions.validate] at ho
      | some ev =>
        constructor
        · constructor
          · rintro ⟨msg, hmsg⟩
            simp [NemoOptionsBuilder.build, NemoOptions.validate] at hmsg
          · rintro ⟨_, hor⟩
            rcases hor with hc | hc <;> cases hc
        · intro o ho
          simp [NemoOptionsBuilder.build, NemoOptions.validate] at ho
          subst ho
          exact ⟨rfl, fun _ => ⟨rfl, rfl, sv, ev, rfl, rfl⟩⟩

/-- Witness for C9: a builder with both ids and `answer_loss_only = true`
builds successfully and the built options carry both ids. -/
theorem C9_witness :
    (NemoOptionsBuilder.mk (some 4368) (some 106) true).build =
      .ok ⟨some 4368, some 106, true⟩ ∧
    ∃ sId eId,
      (NemoOptions.mk (some 4368) (some 106) true).answer_start_id = some sId ∧
      (NemoOptions.mk (some 4368) (some 106) true).answer_end_id = some eId := by
  have h := (C9_options_validated ⟨some 4368, some 106, true⟩).2
    ⟨some 4368, some 106, true⟩ rfl
  exact ⟨rfl, (h.2 rfl).2.2⟩

/-! ## Histogram construction (`src/lib.rs`) -/

/-- Failures of `create_hist` (lib.rs lines 101-113): the
`expect("Expected key 'input_ids' in the dataset entry")` and the
`panic!("Sequence length exceeds the maximum allowed length.")`. -/
inductive HistError
  | missingRequiredField
  | lengthExceeded
  deriving Repr, DecidableEq

/-- One flattened record: lib.rs lines 90-99 flatten the dict-of-lists input
into records each holding a single `(field name, sequence)` entry. -/
abbrev HistRecord := String × List Nat

/-- The embedded `Histogram` bucket map (`HashMap<usize, Vec<record>>`). -/
abbrev Hist := List (Nat × List HistRecord)

def histGet : Hist → Nat → List HistRecord
  | [], _ => []
  | p :: rest, l => if p.1 = l then p.2 else histGet rest l

/-- `sequences.entry(seq_len).or_default().push(entry)` (lib.rs line 111). -/
def histPush : Hist → Nat → HistRecord → Hist
  | [], l, r => [(l, [r])]
  | p :: rest, l, r =>
    if p.1 = l then (p.1, p.2 ++ [r]) :: rest else p :: histPush rest l r

/-- lib.rs lines 90-99: flatten the dict of lists into single-field records
(the field iteration order of the input `HashMap` is unspecified; within one
field the sequence order is kept). -/
def flattenDataset (ds : List (String × List (List Nat))) : List HistRecord :=
  (ds.map (fun kv => kv.2.map (fun v => (kv.1, v)))).flatten

/-- The record loop of `create_hist` (lib.rs lines 101-113): first the
`get("input_ids").expect(…)`, then the length check, then the bucket push. -/
def createHistRecords (cap : Nat) : Hist → List HistRecord →
    Except HistError Hist
  | hist, [] => .ok hist
  | hist, r :: rest =>
    if r.1 = "input_ids" then
      if r.2.length > cap then .error .lengthExceeded
      else createHistRecords cap (histPush hist r.2.length r) rest
    else .error .missingRequiredField

/-- `create_hist` (lib.rs lines 81-121): the histogram, plus the per-length
count vector of size `capacity + 1` built from the bucket sizes (lib.rs lines
115-118; the incrementally maintained `counts` vector is dead code). -/
def create_hist (ds : List (String × List (List Nat))) (cap : Nat) :
    Except HistError (Hist × List Nat) :=
  (createHistRecords cap [] (flattenDataset ds)).map
    (fun hist =>
      (hist, (List.range (cap + 1)).map (fun l => (histGet hist l).length)))

theorem histGet_histPush (k l : Nat) (r : HistRecord) : ∀ (hist : Hist),
    histGet (histPush hist k r) l =
      if k = l then histGet hist l ++ [r] else histGet hist l := by
  intro hist
  induction hist with
  | nil =>
    by_cases h : k = l
    · simp [histPush, histGet, h]
    · simp [histPush, histGet, h]
  | cons p rest ih =>
    obtain ⟨pk, pr⟩ := p
    by_cases h1 : pk = k
    · simp only [histPush, if_pos h1]
      by_cases h2 : k = l
      · have hpl : pk = l := h1.trans h2
        rw [if_pos h2]
        simp only [histGet, if_pos hpl]
      · have hpl : ¬ pk = l := fun hc => h2 (h1.symm.trans hc)
        rw [if_neg h2]
        simp only [histGet, if_neg hpl]
    · simp only [histPush, if_neg h1]
      by_cases h2 : pk = l
      · have hkl : ¬ k = l := fun hc => h1 (h2.trans hc.symm)
        rw [if_neg hkl]
        simp only [histGet, if_pos h2]
      · simp only [histGet, if_neg h2]
        exact ih

/-- The record loop on a pure `input_ids` record list: fails (with the
length panic) exactly on an over-long sequence, and otherwise buckets each
record under its length, preserving order and content. -/
theorem createHistRecords_primary (cap : Nat) :
    ∀ (seqs : List (List Nat)) (hist : Hist),
      ((∃ s ∈ seqs, cap < s.length) →
        createHistRecords cap hist (seqs.map (fun s => ("input_ids", s))) =
          .error .lengthExceeded) ∧
      ((∀ s ∈ seqs, s.length ≤ cap) →
        ∃ hist', createHistRecords cap hist
            (seqs.map (fun s => ("input_ids", s))) = .ok hist' ∧
          ∀ l, histGet hist' l = histGet hist l ++
            ((seqs.filter (fun s => s.length = l)).map
              (fun s => ("input_ids", s)))) := by
  intro seqs
  induction seqs with
  | nil =>
    intro hist
    constructor
    · rintro ⟨s, hs, _⟩
      cases hs
    · intro _
      exact ⟨hist, rfl, fun l => by simp⟩
  | cons s rest ih =>
    intro hist
    constructor
    · rintro ⟨q, hq, hqlen⟩
      have hstep : createHistRecords cap hist
            ((s :: rest).map (fun s => ("input_ids", s))) =
          if s.length > cap then .error .lengthExceeded
          else createHistRecords cap (histPush hist s.length ("input_ids", s))
            (rest.map (fun s => ("input_ids", s))) := rfl
      rw [hstep]
      by_cases hs : cap < s.length
      · rw [if_pos hs]
      · rw [if_neg hs]
        refine (ih _).1 ⟨q, ?_, hqlen⟩
        rcases List.mem_cons.1 hq with rfl | hq'
        · omega
        · exact hq'
    · intro hall
      have hs : ¬ s.length > cap := by
        have := hall s (List.mem_cons_self _ _)
        omega
      have hstep : createHistRecords cap hist
            ((s :: rest).map (fun s => ("input_ids", s))) =
          if s.length > cap then .error .lengthExceeded
          else createHistRecords cap (histPush hist s.length ("input_ids", s))
            (rest.map (fun s => ("input_ids", s))) := rfl
      rw [hstep, if_neg hs]
      obtain ⟨hist', hok, hbuckets⟩ :=
        (ih (histPush hist s.length ("input_ids", s))).2
          (fun q hq => hall q (List.mem_cons_of_mem _ hq))
      refine ⟨hist', hok, ?_⟩
      intro l
      rw [hbuckets l, histGet_histPush]
      by_cases hl : s.length = l
      · rw [if_pos hl, List.filter_cons, if_pos (by simpa using hl)]
        simp
      · rw [if_neg hl, List.filter_cons, if_neg (by simpa using hl)]

/-- C8.  For a dataset holding only the primary field `"input_ids"`,
histogram construction fails with the length panic exactly when some sequence
is strictly longer than the capacity; on success no sequence is truncated,
every record sits in the bucket keyed by its sequence's length (in input
order, unmodified), and the returned per-length count vector has exactly
`capacity + 1` entries with entry `l` counting the sequences of length `l`. -/
theorem C8_hist (seqs : List (List Nat)) (cap : Nat) :
    ((∃ s ∈ seqs, cap < s.length) →
      create_hist [("input_ids", seqs)] cap = .error .lengthExceeded) ∧
    ((∀ s ∈ seqs, s.length ≤ cap) →
      ∃ hist counts,
        create_hist [("input_ids", seqs)] cap = .ok (hist, counts) ∧
        counts.length = cap + 1 ∧
        (∀ l, l ≤ cap →
          counts[l]? = some ((seqs.filter (fun s => s.length = l)).length)) ∧
        (∀ l, histGet hist l =
          (seqs.filter (fun s => s.length = l)).map
            (fun s => ("input_ids", s)))) := by
  have hflat : flattenDataset [("input_ids", seqs)] =
      seqs.map (fun s => ("input_ids", s)) := by
    simp [flattenDataset]
  constructor
  · intro hex
    rw [create_hist, hflat, (createHistRecords_primary cap seqs []).1 hex]
    rfl
  · intro hall
    obtain ⟨hist', hok, hbuckets⟩ := (createHistRecords_primary cap seqs []).2 hall
    refine ⟨hist',
      (List.range (cap + 1)).map (fun l => (histGet hist' l).length),
      ?_, ?_, ?_, ?_⟩
    · rw [create_hist, hflat, hok]
      rfl
    · simp
    · intro l hl
      have hbl : (histGet hist' l).length =
          (seqs.filter (fun s => s.length = l)).length := by
        rw [hbuckets l]
        simp [histGet]
      rw [List.getElem?_map, List.getElem?_range (show l < cap + 1 by omega)]
      simp [hbl]
    · intro l
      have hbl := hbuckets l
      simpa [histGet] using hbl

/-- Witness for C8 at a concrete dataset: lengths 1, 2, 1 with capacity 2. -/
theorem C8_witness :
    ∃ hist counts,
      create_hist [("input_ids", [[1], [2, 3], [4]])] 2 = .ok (hist, counts) ∧
      counts.length = 3 ∧ counts[1]? = some 2 ∧
      histGet hist 1 = [("input_ids", [1]), ("input_ids", [4])] := by
  obtain ⟨hist, counts, hok, hlen, hcounts, hbuckets⟩ :=
    (C8_hist [[1], [2, 3], [4]] 2).2 (by decide)
  refine ⟨hist, counts, hok, hlen, ?_, ?_⟩
  · exact (hcounts 1 (by omega)).trans (by decide)
  · exact (hbuckets 1).trans (by decide)

theorem mem_flattenDataset {ds : List (String × List (List Nat))}
    {r : HistRecord} :
    r ∈ flattenDataset ds ↔ ∃ kv ∈ ds, r.1 = kv.1 ∧ r.2 ∈ kv.2 := by
  simp only [flattenDataset, List.mem_flatten, List.mem_map]
  constructor
  · rintro ⟨l, ⟨kv, hkv, rfl⟩, hr⟩
    obtain ⟨v, hv, rfl⟩ := List.mem_map.1 hr
    exact ⟨kv, hkv, rfl, hv⟩
  · rintro ⟨kv, hkv, hfst, hsnd⟩
    refine ⟨kv.2.map (fun v => (kv.1, v)), ⟨kv, hkv, rfl⟩, ?_⟩
    refine List.mem_map.2 ⟨r.2, hsnd, ?_⟩
    rw [← hfst]

theorem createHistRecords_missing (cap : Nat) :
    ∀ (records : List HistRecord) (hist : Hist),
      (∀ r ∈ records, r.2.length ≤ cap) →
      (∃ r ∈ records, r.1 ≠ "input_ids") →
      createHistRecords cap hist records = .error .missingRequiredField := by
  intro records
  induction records with
  | nil =>
    rintro hist _ ⟨r, hr, _⟩
    cases hr
  | cons r rest ih =>
    intro hist hb hex
    by_cases hk : r.1 = "input_ids"
    · have hrb : ¬ r.2.length > cap := by
        have := hb r (List.mem_cons_self _ _)
        omega
      simp only [createHistRecords, if_pos hk, if_neg hrb]
      refine ih _ (fun q hq => hb q (List.mem_cons_of_mem _ hq)) ?_
      obtain ⟨q, hq, hqk⟩ := hex
      rcases List.mem_cons.1 hq with rfl | hq'
      · exact absurd hk hqk
      · exact ⟨q, hq', hqk⟩
    · simp only [createHistRecords, if_neg hk]

/-- C10.  If the dataset maps any field name other than `"input_ids"` to a
non-empty sequence list, histogram construction fails with the
missing-required-field panic even when every sequence is within capacity and
also supplied under `"input_ids"`: the dict-of-lists input is flattened into
single-field records, so each record built from a non-primary field lacks the
`"input_ids"` key — auxiliary fields are never carried through. -/
theorem C10_auxiliary_field {ds : List (String × List (List Nat))} {cap : Nat}
    (hbound : ∀ kv ∈ ds, ∀ s ∈ kv.2, s.length ≤ cap)
    (hfield : ∃ kv ∈ ds, kv.1 ≠ "input_ids" ∧ kv.2 ≠ []) :
    create_hist ds cap = .error .missingRequiredField := by
  rw [create_hist]
  rw [createHistRecords_missing cap (flattenDataset ds) [] ?_ ?_]
  · rfl
  · intro r hr
    obtain ⟨kv, hkv, _, hsnd⟩ := mem_flattenDataset.1 hr
    exact hbound kv hkv r.2 hsnd
  · obtain ⟨kv, hkv, hkey, hne⟩ := hfield
    obtain ⟨v, hv⟩ := List.exists_mem_of_ne_nil _ hne
    refine ⟨(kv.1, v), mem_flattenDataset.2 ⟨kv, hkv, rfl, hv⟩, hkey⟩

/-- Witness for C10: `"labels"` supplied next to `"input_ids"` with identical,
in-capacity sequences still fails. -/
theorem C10_witness :
    create_hist [("input_ids", [[1, 2]]), ("labels", [[1, 2]])] 4 =
      .error .missingRequiredField :=
  C10_auxiliary_field (by decide)
    ⟨("labels", [[1, 2]]), by decide, by decide, by decide⟩

end Binpack
